import Mathlib

/-!
Verification of the oapi-codegen/runtime parameter codec.

Strings from the Go source are modelled as lists of characters (`Str`), so
that the splitting / joining / percent-escaping functions of the runtime can
be reasoned about by structural induction.  Functions whose Go source is part
of the repository are translated directly; functions whose source is absent
from the snapshot (only their tests remain) are modelled from the
specification and say so in their doc comment.
-/

/-- Strings of the Go runtime, modelled as lists of characters. -/
abbrev Str := List Char

/-- Splits a string on a separator character; `splitSep c s` never returns
the empty list, and `joinSep c (splitSep c s) = s`.  This is the model of
the `strings.Split` calls of the runtime. -/
def splitSep (sep : Char) : Str → List Str
  | [] => [[]]
  | c :: rest =>
    let r := splitSep sep rest
    if c = sep then [] :: r
    else
      match r with
      | [] => [[c]]
      | a :: as => (c :: a) :: as

/-- Joins a list of strings with a separator character, the model of
`strings.Join`. -/
def joinSep (sep : Char) : List Str → Str
  | [] => []
  | [x] => x
  | x :: xs => x ++ sep :: joinSep sep xs

theorem splitSep_ne_nil (sep : Char) (s : Str) : splitSep sep s ≠ [] := by
  cases s with
  | nil => simp [splitSep]
  | cons c rest =>
    simp only [splitSep]
    by_cases h : c = sep
    · simp [h]
    · simp only [h, if_false]
      cases splitSep sep rest with
      | nil => simp
      | cons a as => simp

theorem splitSep_of_not_mem {sep : Char} {s : Str} (h : sep ∉ s) :
    splitSep sep s = [s] := by
  induction s with
  | nil => rfl
  | cons c rest ih =>
    have hc : c ≠ sep := fun hc => h (hc ▸ List.mem_cons_self c rest)
    have hrest : sep ∉ rest := fun hm => h (List.mem_cons_of_mem c hm)
    simp [splitSep, hc, ih hrest]

theorem splitSep_append_sep {sep : Char} {s : Str} (h : sep ∉ s) (t : Str) :
    splitSep sep (s ++ sep :: t) = s :: splitSep sep t := by
  induction s with
  | nil => simp [splitSep]
  | cons c rest ih =>
    have hc : c ≠ sep := fun hc => h (hc ▸ List.mem_cons_self c rest)
    have hrest : sep ∉ rest := fun hm => h (List.mem_cons_of_mem c hm)
    have := ih hrest
    simp only [List.cons_append, splitSep, List.append_eq, this, hc, if_false]

theorem splitSep_joinSep {sep : Char} :
    ∀ {xs : List Str}, xs ≠ [] → (∀ x ∈ xs, sep ∉ x) →
      splitSep sep (joinSep sep xs) = xs
  | [], h, _ => absurd rfl h
  | [x], _, hall => by
      simp [joinSep, splitSep_of_not_mem (hall x (List.mem_singleton_self x))]
  | x :: y :: xs, _, hall => by
      have hx : sep ∉ x := hall x (List.mem_cons_self _ _)
      have htail : ∀ z ∈ y :: xs, sep ∉ z := fun z hz =>
        hall z (List.mem_cons_of_mem x hz)
      have ih := @splitSep_joinSep sep (y :: xs) (by simp) htail
      simp only [joinSep]
      rw [splitSep_append_sep hx, ih]

theorem mem_joinSep {sep c : Char} {xs : List Str} (h : c ∈ joinSep sep xs) :
    c = sep ∨ ∃ x ∈ xs, c ∈ x := by
  induction xs with
  | nil => simp [joinSep] at h
  | cons x ys ih =>
    cases ys with
    | nil =>
      simp only [joinSep] at h
      exact Or.inr ⟨x, List.mem_singleton_self x, h⟩
    | cons y zs =>
      simp only [joinSep, List.mem_append, List.mem_cons] at h
      rcases h with h | h | h
      · exact Or.inr ⟨x, List.mem_cons_self _ _, h⟩
      · exact Or.inl h
      · rcases ih h with h' | ⟨z, hz, hc⟩
        · exact Or.inl h'
        · exact Or.inr ⟨z, List.mem_cons_of_mem x hz, hc⟩

theorem joinSep_ne_nil {sep : Char} {xs : List Str} (hne : xs ≠ [])
    (h : ∀ x ∈ xs, x ≠ []) : joinSep sep xs ≠ [] := by
  cases xs with
  | nil => exact absurd rfl hne
  | cons x ys =>
    cases ys with
    | nil => exact h x (List.mem_singleton_self x)
    | cons y zs =>
      simp only [joinSep]
      intro hcontr
      exact h x (List.mem_cons_self _ _) (List.append_eq_nil.mp hcontr).1

/-- Hexadecimal digit value, as accepted by `url.QueryUnescape` (either
case). -/
def hexVal (c : Char) : Option Nat :=
  if '0' ≤ c ∧ c ≤ '9' then some (c.toNat - 48)
  else if 'A' ≤ c ∧ c ≤ 'F' then some (c.toNat - 55)
  else if 'a' ≤ c ∧ c ≤ 'f' then some (c.toNat - 87)
  else none

mutual

/-- Percent-decodes a string; fails on a malformed escape, like
`url.QueryUnescape`. -/
def unescape : Str → Option Str
  | [] => some []
  | c :: rest =>
    if c = '%' then unescapePct rest
    else (unescape rest).map (c :: ·)

/-- Decodes the two hexadecimal digits that must follow a percent sign. -/
def unescapePct : Str → Option Str
  | h1 :: h2 :: rest' =>
    match hexVal h1, hexVal h2 with
    | some d1, some d2 => (unescape rest').map (Char.ofNat (16 * d1 + d2) :: ·)
    | _, _ => none
  | _ => none

end

/-- Percent-escapes one character: the delimiter characters of the query
styles (and the escape character itself) are replaced by their escape
sequence, every other character is kept. -/
def escChar (c : Char) : Str :=
  if c = '%' then ['%', '2', '5']
  else if c = '&' then ['%', '2', '6']
  else if c = '=' then ['%', '3', 'D']
  else if c = ',' then ['%', '2', 'C']
  else if c = '[' then ['%', '5', 'B']
  else if c = ']' then ['%', '5', 'D']
  else [c]

/-- Percent-escapes a string, the encoding used for every scalar token the
style encoder emits into a raw query string. -/
def esc (s : Str) : Str := (s.map escChar).flatten

theorem esc_nil : esc [] = [] := rfl

theorem esc_cons (c : Char) (s : Str) : esc (c :: s) = escChar c ++ esc s := by
  simp [esc]

theorem unescape_cons_of_ne {c : Char} (h : c ≠ '%') (t : Str) :
    unescape (c :: t) = (unescape t).map (c :: ·) := by
  rw [unescape, if_neg h]

theorem unescape_escChar (c : Char) (t : Str) :
    unescape (escChar c ++ t) = (unescape t).map (c :: ·) := by
  by_cases h1 : c = '%'
  · subst h1
    rw [show escChar '%' = ['%', '2', '5'] from rfl]
    rw [List.cons_append, List.cons_append, List.cons_append, List.nil_append]
    rw [unescape, if_pos rfl, unescapePct]
    rfl
  by_cases h2 : c = '&'
  · subst h2
    rw [show escChar '&' = ['%', '2', '6'] from rfl]
    rw [List.cons_append, List.cons_append, List.cons_append, List.nil_append]
    rw [unescape, if_pos rfl, unescapePct]
    rfl
  by_cases h3 : c = '='
  · subst h3
    rw [show escChar '=' = ['%', '3', 'D'] from rfl]
    rw [List.cons_append, List.cons_append, List.cons_append, List.nil_append]
    rw [unescape, if_pos rfl, unescapePct]
    rfl
  by_cases h4 : c = ','
  · subst h4
    rw [show escChar ',' = ['%', '2', 'C'] from rfl]
    rw [List.cons_append, List.cons_append, List.cons_append, List.nil_append]
    rw [unescape, if_pos rfl, unescapePct]
    rfl
  by_cases h5 : c = '['
  · subst h5
    rw [show escChar '[' = ['%', '5', 'B'] from rfl]
    rw [List.cons_append, List.cons_append, List.cons_append, List.nil_append]
    rw [unescape, if_pos rfl, unescapePct]
    rfl
  by_cases h6 : c = ']'
  · subst h6
    rw [show escChar ']' = ['%', '5', 'D'] from rfl]
    rw [List.cons_append, List.cons_append, List.cons_append, List.nil_append]
    rw [unescape, if_pos rfl, unescapePct]
    rfl
  · rw [show escChar c = [c] by simp [escChar, h1, h2, h3, h4, h5, h6]]
    rw [List.cons_append, List.nil_append, unescape_cons_of_ne h1]

theorem unescape_esc_append (s t : Str) :
    unescape (esc s ++ t) = (unescape t).map (s ++ ·) := by
  induction s with
  | nil => simp [esc_nil]
  | cons c s' ih =>
    rw [esc_cons, List.append_assoc, unescape_escChar, ih]
    cases unescape t <;> simp

theorem unescape_esc (s : Str) : unescape (esc s) = some s := by
  have := unescape_esc_append s []
  simpa [unescape] using this

theorem unescape_clean_append {s : Str} (h : '%' ∉ s) (t : Str) :
    unescape (s ++ t) = (unescape t).map (s ++ ·) := by
  induction s with
  | nil => simp
  | cons c s' ih =>
    have hc : c ≠ '%' := fun hc => h (hc ▸ List.mem_cons_self c s')
    have hs' : '%' ∉ s' := fun hm => h (List.mem_cons_of_mem c hm)
    rw [List.cons_append, unescape_cons_of_ne hc, ih hs']
    cases unescape t <;> simp

theorem unescape_clean {s : Str} (h : '%' ∉ s) : unescape s = some s := by
  have := unescape_clean_append h []
  simpa [unescape] using this

theorem escChar_not_special {c c' : Char}
    (h : c' ∈ (['&', '=', ',', '[', ']'] : List Char)) : c' ∉ escChar c := by
  by_cases h1 : c = '%'
  · subst h1; fin_cases h <;> decide
  by_cases h2 : c = '&'
  · subst h2; fin_cases h <;> decide
  by_cases h3 : c = '='
  · subst h3; fin_cases h <;> decide
  by_cases h4 : c = ','
  · subst h4; fin_cases h <;> decide
  by_cases h5 : c = '['
  · subst h5; fin_cases h <;> decide
  by_cases h6 : c = ']'
  · subst h6; fin_cases h <;> decide
  · simp only [escChar, h1, h2, h3, h4, h5, h6, if_false, List.mem_singleton]
    intro heq
    subst heq
    fin_cases h <;> simp_all

theorem esc_not_special {s : Str} {c' : Char}
    (h : c' ∈ (['&', '=', ',', '[', ']'] : List Char)) : c' ∉ esc s := by
  induction s with
  | nil => simp [esc_nil]
  | cons c s' ih =>
    rw [esc_cons]
    intro hm
    rcases List.mem_append.mp hm with hm | hm
    · exact escChar_not_special h hm
    · exact ih hm

/-- Splits a raw `key=value` pair at the first equals sign, like
`strings.Cut`: a pair without an equals sign yields the whole pair as the
key and the empty string as the value. -/
def cutEq : Str → Str × Str
  | [] => ([], [])
  | c :: r =>
    if c = '=' then ([], r)
    else
      let p := cutEq r
      (c :: p.1, p.2)

theorem cutEq_no_eq {k : Str} (h : '=' ∉ k) : cutEq k = (k, []) := by
  induction k with
  | nil => rfl
  | cons c r ih =>
    have hc : c ≠ '=' := fun hc => h (hc ▸ List.mem_cons_self c r)
    have hr : '=' ∉ r := fun hm => h (List.mem_cons_of_mem c hm)
    simp [cutEq, hc, ih hr]

theorem cutEq_append {k : Str} (h : '=' ∉ k) (v : Str) :
    cutEq (k ++ '=' :: v) = (k, v) := by
  induction k with
  | nil => simp [cutEq]
  | cons c r ih =>
    have hc : c ≠ '=' := fun hc => h (hc ▸ List.mem_cons_self c r)
    have hr : '=' ∉ r := fun hm => h (List.mem_cons_of_mem c hm)
    simp [cutEq, hc, ih hr]

/-- The character for a decimal digit. -/
def digitChar (d : Nat) : Char := Char.ofNat (48 + d)

/-- The decimal value of a digit character, `none` for a non-digit. -/
def digitVal (c : Char) : Option Nat :=
  if '0' ≤ c ∧ c ≤ '9' then some (c.toNat - 48) else none

/-- Renders a natural number in decimal, the model of `strconv.Itoa` for
array indices of the deepObject style. -/
def natToStr (n : Nat) : Str :=
  if n = 0 then ['0'] else ((Nat.digits 10 n).map digitChar).reverse

/-- Parses a decimal natural number, the model of `strconv.Atoi` for array
indices of the deepObject style; fails on the empty string or a non-digit. -/
def natFromStr (s : Str) : Option Nat :=
  if s = [] then none
  else s.foldl (fun acc c => acc.bind fun a => (digitVal c).map fun d => a * 10 + d) (some 0)

theorem digitVal_digitChar {d : Nat} (h : d < 10) : digitVal (digitChar d) = some d := by
  interval_cases d <;> decide

theorem digitChar_toNat {d : Nat} (h : d < 10) :
    48 ≤ (digitChar d).toNat ∧ (digitChar d).toNat ≤ 57 := by
  interval_cases d <;> decide

theorem natToStr_digit_range {n : Nat} {c : Char} (h : c ∈ natToStr n) :
    48 ≤ c.toNat ∧ c.toNat ≤ 57 := by
  by_cases h0 : n = 0
  · subst h0
    simp only [natToStr, if_pos trivial, reduceIte, List.mem_singleton] at h
    subst h
    decide
  · simp only [natToStr, if_neg h0, List.mem_reverse, List.mem_map] at h
    obtain ⟨d, hd, rfl⟩ := h
    exact digitChar_toNat (Nat.digits_lt_base (by norm_num) hd)

theorem natToStr_ne_nil (n : Nat) : natToStr n ≠ [] := by
  by_cases h0 : n = 0
  · subst h0; simp [natToStr]
  · simp only [natToStr, if_neg h0, ne_eq, List.reverse_eq_nil_iff, List.map_eq_nil_iff]
    exact Nat.digits_ne_nil_iff_ne_zero.mpr h0

theorem natToStr_not_mem {n : Nat} {c : Char} (hc : c.toNat < 48 ∨ 57 < c.toNat) :
    c ∉ natToStr n := by
  intro hm
  have := natToStr_digit_range hm
  omega

theorem foldl_digitChar (ds : List Nat) (hds : ∀ d ∈ ds, d < 10) (a : Nat) :
    ((ds.map digitChar).reverse).foldl
        (fun acc c => acc.bind fun x => (digitVal c).map fun d => x * 10 + d) (some a) =
      some (a * 10 ^ ds.length + Nat.ofDigits 10 ds) := by
  induction ds generalizing a with
  | nil => simp [Nat.ofDigits_nil]
  | cons d ds' ih =>
    have hd : d < 10 := hds d (List.mem_cons_self _ _)
    have hds' : ∀ x ∈ ds', x < 10 := fun x hx => hds x (List.mem_cons_of_mem d hx)
    rw [List.map_cons, List.reverse_cons, List.foldl_append, ih hds' a]
    rw [Nat.ofDigits_cons]
    simp only [List.foldl_cons, List.foldl_nil, digitVal_digitChar hd,
      Option.some_bind, Option.map_some', List.length_cons]
    congr 1
    ring

theorem natFromStr_natToStr (n : Nat) : natFromStr (natToStr n) = some n := by
  by_cases h0 : n = 0
  · subst h0; decide
  · rw [natToStr, if_neg h0, natFromStr,
      if_neg (by simpa [natToStr, h0] using natToStr_ne_nil n)]
    rw [foldl_digitChar (Nat.digits 10 n) (fun d hd => Nat.digits_lt_base (by norm_num) hd) 0]
    rw [Nat.ofDigits_digits]
    simp

/-- Parameter locations of the runtime (`ParamLocation` in Go). -/
inductive ParamLocation where
  | query
  | path
  | header
  | cookie
  | undefined
deriving DecidableEq, Repr

/-- A flat destination/source value for query binding: a scalar (whose
encoded string form is stored), an array of scalars, or a flat object of
scalars.  This is the fragment of Go values that the round-trip claims
quantify over. -/
inductive Value where
  | scalar (s : Str)
  | arr (vs : List Str)
  | obj (fs : List (Str × Str))
deriving DecidableEq, Repr

/-- The shape of a binding destination, as the reflection-driven binder
reads it off the destination type: a scalar, a slice, or a struct with its
declared field names in declaration order. -/
inductive Shape where
  | scalarS
  | arrS
  | objS (names : List Str)
deriving DecidableEq, Repr

/-- The shape of the destination that matches a value, with the object
field names in declared order. -/
def shapeOf : Value → Shape
  | .scalar _ => .scalarS
  | .arr _ => .arrS
  | .obj fs => .objS (fs.map Prod.fst)

/-- Result of a binding call: `absent` models the destination being left at
its zero/default value (nil for a pointer destination), `bound v` models the
destination populated with `v`. -/
inductive BindResult where
  | absent
  | bound (v : Value)
deriving DecidableEq, Repr

/-- Structured binding errors of the runtime (§7 of the spec). -/
inductive BindErr where
  | requiredMissing (name : Str)
  | notExploded (name : Str)
  | unsupportedStyle (style : Str)
  | invalidStyleExplode (style : Str)
  | invalidStyle (style : Str)
  | decodeFailure (tok : Str)
  | shapeMismatch
deriving DecidableEq, Repr

/-- The message text of a binding error; the claims about error wording are
stated against this rendering. -/
def errMsg : BindErr → Str
  | .requiredMissing n => ("query parameter ".toList ++ n) ++ " is required".toList
  | .notExploded n => ("query parameter ".toList ++ n) ++ " has multiple values, but is not exploded".toList
  | .unsupportedStyle st => "unsupported style ".toList ++ st
  | .invalidStyleExplode st => ("style ".toList ++ st) ++ " must be exploded".toList
  | .invalidStyle st => "invalid style ".toList ++ st
  | .decodeFailure tok => "failed to decode token ".toList ++ tok
  | .shapeMismatch => "destination shape does not accept the token structure".toList

/-- Matches one raw `key=value` pair against a parameter name: the key
portion is percent-decoded for the comparison only, and the still-encoded
value portion is returned verbatim. -/
def rawPairMatch (name : Str) (p : Str) : Option Str :=
  let kv := cutEq p
  if unescape kv.1 = some name then some kv.2 else none

/-- Modelled from the spec: `findRawQueryParam` (its Go source is absent
from the snapshot; only `TestFindRawQueryParam` remains).  Scans the
`&`-separated pairs of the still-percent-encoded raw query string, compares
only the percent-decoded key portion against `name`, and returns the
still-encoded value portions verbatim, preserving duplicates in order; an
empty query string yields not-found for any name. -/
def findRawQueryParam (rawQuery name : Str) : Option (List Str) :=
  if rawQuery = [] then none
  else
    let vs := (splitSep '&' rawQuery).filterMap (rawPairMatch name)
    if vs = [] then none else some vs

theorem filterMap_congr_mem {α β : Type} {l : List α} {f g : α → Option β}
    (h : ∀ a ∈ l, f a = g a) : l.filterMap f = l.filterMap g := by
  induction l with
  | nil => rfl
  | cons a l ih =>
    rw [List.filterMap_cons, List.filterMap_cons, h a (List.mem_cons_self _ _),
      ih fun a ha => h a (List.mem_cons_of_mem _ ha)]

theorem findRawQueryParam_join (ps : List (Str × Str)) (name : Str)
    (hne : ps ≠ [])
    (hk : ∀ p ∈ ps, '&' ∉ p.1 ∧ '=' ∉ p.1)
    (hv : ∀ p ∈ ps, '&' ∉ p.2) :
    findRawQueryParam (joinSep '&' (ps.map fun kv => kv.1 ++ '=' :: kv.2)) name =
      (let vs := ps.filterMap fun kv =>
        if unescape kv.1 = some name then some kv.2 else none
       if vs = [] then none else some vs) := by
  have hpieces : ∀ x ∈ ps.map fun kv => kv.1 ++ '=' :: kv.2, '&' ∉ x := by
    intro x hx
    obtain ⟨kv, hkv, rfl⟩ := List.mem_map.mp hx
    intro hmem
    rcases List.mem_append.mp hmem with hmem | hmem
    · exact (hk kv hkv).1 hmem
    · rcases List.mem_cons.mp hmem with hmem | hmem
      · exact absurd hmem (by decide)
      · exact hv kv hkv hmem
  have hpieces_ne : ∀ x ∈ ps.map fun kv => kv.1 ++ '=' :: kv.2, x ≠ [] := by
    intro x hx
    obtain ⟨kv, hkv, rfl⟩ := List.mem_map.mp hx
    simp
  have hmap_ne : ps.map (fun kv => kv.1 ++ '=' :: kv.2) ≠ [] := by
    simpa using hne
  have hraw : joinSep '&' (ps.map fun kv => kv.1 ++ '=' :: kv.2) ≠ [] :=
    joinSep_ne_nil hmap_ne hpieces_ne
  rw [findRawQueryParam, if_neg hraw]
  rw [splitSep_joinSep hmap_ne hpieces, List.filterMap_map]
  have : ps.filterMap ((rawPairMatch name) ∘ fun kv => kv.1 ++ '=' :: kv.2) =
      ps.filterMap fun kv => if unescape kv.1 = some name then some kv.2 else none := by
    apply filterMap_congr_mem
    intro kv hkv
    simp only [Function.comp_apply, rawPairMatch, cutEq_append (hk kv hkv).2]
  rw [this]

/-- The style names, as the Go runtime receives them (plain strings). -/
def formStyle : Str := "form".toList

/-- The deepObject style name. -/
def deepObjectStyle : Str := "deepObject".toList

/-- The spaceDelimited style name. -/
def spaceDelimitedStyle : Str := "spaceDelimited".toList

/-- The pipeDelimited style name. -/
def pipeDelimitedStyle : Str := "pipeDelimited".toList

/-- A nested value for the deepObject codec: scalars (kept in their encoded
string form), arrays and objects, nesting to arbitrary depth. -/
inductive DValue where
  | scalar (s : Str)
  | arr (xs : List DValue)
  | obj (fs : List (Str × DValue))

mutual

/-- Modelled from the spec: the recursive walk of `MarshalDeepObject` (its
Go source is absent from the snapshot).  Produces, for each leaf scalar, the
bracketed key suffix together with the percent-encoded scalar. -/
def pairsAux : DValue → List (Str × Str)
  | .scalar s => [([], esc s)]
  | .arr xs => pairsArr 0 xs
  | .obj fs => pairsObj fs

/-- The walk over the elements of an array, carrying the next decimal
index. -/
def pairsArr : Nat → List DValue → List (Str × Str)
  | _, [] => []
  | i, x :: xs =>
    ((pairsAux x).map fun q => ('[' :: natToStr i ++ ']' :: q.1, q.2)) ++ pairsArr (i + 1) xs

/-- The walk over the declared fields of an object, in declaration order. -/
def pairsObj : List (Str × DValue) → List (Str × Str)
  | [] => []
  | (k, x) :: fs =>
    ((pairsAux x).map fun q => ('[' :: esc k ++ ']' :: q.1, q.2)) ++ pairsObj fs

end

/-- Modelled from the spec: `MarshalDeepObject` (its Go source is absent
from the snapshot; only `TestDeepObject` remains).  Walks the value
depth-first and emits one `key=encoded_scalar` pair per leaf scalar, the
key being the parameter name followed by the bracketed segments, the pairs
joined by `&`. -/
def MarshalDeepObject (v : DValue) (paramName : Str) : Str :=
  joinSep '&' ((pairsAux v).map fun q => (paramName ++ q.1) ++ '=' :: q.2)

mutual

/-- The depth-first leaf enumeration of a nested value: for each leaf
scalar, the list of raw path segments (declared field names for objects,
decimal indices for arrays) and the raw scalar. -/
def dfLeaves : DValue → List (List Str × Str)
  | .scalar s => [([], s)]
  | .arr xs => dfArr 0 xs
  | .obj fs => dfObj fs

/-- Leaves of an array, with the element index prepended to each path. -/
def dfArr : Nat → List DValue → List (List Str × Str)
  | _, [] => []
  | i, x :: xs => ((dfLeaves x).map fun l => (natToStr i :: l.1, l.2)) ++ dfArr (i + 1) xs

/-- Leaves of an object, with the field name prepended to each path. -/
def dfObj : List (Str × DValue) → List (List Str × Str)
  | [] => []
  | (k, x) :: fs => ((dfLeaves x).map fun l => (k :: l.1, l.2)) ++ dfObj fs

end

/-- Renders a leaf path as the bracketed, percent-encoded key suffix. -/
def renderSegs (segs : List Str) : Str :=
  (segs.map fun g => '[' :: esc g ++ [']']).flatten

/-- Injects a flat binding value into the nested deepObject value space. -/
def toDValue : Value → DValue
  | .scalar s => .scalar s
  | .arr vs => .arr (vs.map DValue.scalar)
  | .obj fs => .obj (fs.map fun kv => (kv.1, DValue.scalar kv.2))

/-- Modelled from the spec: `StyleParamWithLocation` restricted to the query
location and the flat value fragment (its Go source is absent from the
snapshot; only its tests remain).  Produces the raw query fragment of the
§4.3 token grammar for the form style, and the §4.4 bracket grammar for the
deepObject style, percent-encoding every emitted scalar token; spaceDelimited
and pipeDelimited are rejected as unsupported, deepObject without explode is
rejected as an invalid style/explode combination. -/
def StyleParamWithLocation (style : Str) (explode : Bool) (paramName : Str)
    (loc : ParamLocation) (v : Value) : Except BindErr Str :=
  if style = formStyle then
    .ok (match v, explode with
      | .scalar s, _ => paramName ++ '=' :: esc s
      | .arr vs, false => paramName ++ '=' :: joinSep ',' (vs.map esc)
      | .arr vs, true => joinSep '&' (vs.map fun x => paramName ++ '=' :: esc x)
      | .obj fs, false =>
        paramName ++ '=' :: joinSep ',' ((fs.map fun kv => [esc kv.1, esc kv.2]).flatten)
      | .obj fs, true => joinSep '&' (fs.map fun kv => esc kv.1 ++ '=' :: esc kv.2))
  else if style = deepObjectStyle then
    if explode then .ok (MarshalDeepObject (toDValue v) paramName)
    else .error (.invalidStyleExplode style)
  else if style = spaceDelimitedStyle then .error (.unsupportedStyle style)
  else if style = pipeDelimitedStyle then .error (.unsupportedStyle style)
  else .error (.invalidStyle style)

deriving instance DecidableEq for Except

/-- Lifts percent-decoding of one token into the binder's error channel. -/
def unescapeE (t : Str) : Except BindErr Str :=
  match unescape t with
  | some s => .ok s
  | none => .error (.decodeFailure t)

/-- Chunks an even token list into consecutive name/value pairs, the way the
non-exploded object binder consumes its split tokens. -/
def pairsOfTokens : List Str → List (Str × Str)
  | a :: b :: r => (a, b) :: pairsOfTokens r
  | _ => []

/-- Modelled from the spec: the exploded-object path of the form-style
binder — each declared field name is looked up among the raw `k=v` pairs of
the whole query, unmatched optional fields are left at their default, and
the whole parameter is absent exactly when zero fields were found. -/
def explodedObjectBind (required : Bool) (name raw : Str) (names : List Str) :
    Except BindErr BindResult :=
  if names.any fun n => (findRawQueryParam raw n).isSome then do
    let vals ← names.mapM fun n =>
      match findRawQueryParam raw n with
      | some (v :: _) => unescapeE v
      | _ => pure []
    pure (.bound (.obj (names.zip vals)))
  else if required then .error (.requiredMissing name)
  else .ok .absent

/-- Modelled from the spec: the form-style branch of the raw query binder —
presence is resolved through `findRawQueryParam`, a repeated key without
explode is a hard "not exploded" error, a non-exploded collection value is
split on `,` with each split segment percent-decoded individually. -/
def formBind (explode required : Bool) (name raw : Str) (shape : Shape) :
    Except BindErr BindResult :=
  match shape, explode with
  | .objS names, true => explodedObjectBind required name raw names
  | _, _ =>
    match findRawQueryParam raw name with
    | none => if required then .error (.requiredMissing name) else .ok .absent
    | some values =>
      if explode = false ∧ values.length > 1 then .error (.notExploded name)
      else
        match shape with
        | .scalarS => do
          let s ← unescapeE (values.headD [])
          pure (.bound (.scalar s))
        | .arrS =>
          if explode then do
            let vs ← values.mapM unescapeE
            pure (.bound (.arr vs))
          else do
            let vs ← (splitSep ',' (values.headD [])).mapM unescapeE
            pure (.bound (.arr vs))
        | .objS names =>
          let toks := splitSep ',' (values.headD [])
          if toks.length % 2 ≠ 0 then .error .shapeMismatch
          else do
            let ts ← toks.mapM unescapeE
            pure (.bound (.obj (names.map fun n => (n, ((pairsOfTokens ts).lookup n).getD []))))

/-- Parses a percent-decoded query key of the flat deepObject grammar
`name[seg]`, returning the single bracketed segment. -/
def parseDeepSeg (name k : Str) : Option Str :=
  if k.take name.length = name then
    match k.drop name.length with
    | '[' :: rest =>
      let seg := rest.dropLast
      if rest.getLast? = some ']' ∧ '[' ∉ seg ∧ ']' ∉ seg then some seg else none
    | _ => none
  else none

/-- The raw pairs of the query whose percent-decoded key parses as
`name[seg]`, as (segment, still-encoded value), in query order. -/
def deepDecoded (name raw : Str) : List (Str × Str) :=
  (if raw = [] then [] else splitSep '&' raw).filterMap fun p =>
    (unescape (cutEq p).1).bind fun k => (parseDeepSeg name k).map fun seg => (seg, (cutEq p).2)

/-- The deepObject pairs whose segment is a decimal index, as
(index, still-encoded value). -/
def deepIdxed (name raw : Str) : List (Nat × Str) :=
  (deepDecoded name raw).filterMap fun q => (natFromStr q.1).map fun i => (i, q.2)

/-- Modelled from the spec: the deepObject branch of the raw query binder
for flat destinations — every raw pair whose percent-decoded key parses as
`name[seg]` is routed by segment: declared field names for an object
destination, decimal indices for an array destination (the array is sized
to the maximum index seen, missing indices default); zero matching keys
resolve to absent. -/
def deepBind (required : Bool) (name raw : Str) (shape : Shape) :
    Except BindErr BindResult :=
  if deepDecoded name raw = [] then
    if required then .error (.requiredMissing name) else .ok .absent
  else
    match shape with
    | .scalarS => .error .shapeMismatch
    | .objS names => do
      let vals ← names.mapM fun n =>
        match (deepDecoded name raw).find? fun q => q.1 == n with
        | some q => unescapeE q.2
        | none => pure []
      pure (.bound (.obj (names.zip vals)))
    | .arrS =>
      if deepIdxed name raw = [] then .error .shapeMismatch
      else do
        let vs ← (List.range (((deepIdxed name raw).map Prod.fst).foldr Nat.max 0 + 1)).mapM
          fun i =>
            match (deepIdxed name raw).find? fun q => q.1 == i with
            | some q => unescapeE q.2
            | none => pure []
        pure (.bound (.arr vs))

/-- Modelled from the spec: `BindRawQueryParameter` (its Go source is absent
from the snapshot; only its tests remain).  Dispatches on the style string:
spaceDelimited and pipeDelimited are rejected as unsupported, deepObject
requires explode, form goes through presence resolution and the form-style
grammar, anything else is an invalid style. -/
def BindRawQueryParameter (style : Str) (explode required : Bool)
    (paramName rawQuery : Str) (shape : Shape) : Except BindErr BindResult :=
  if style = spaceDelimitedStyle then .error (.unsupportedStyle style)
  else if style = pipeDelimitedStyle then .error (.unsupportedStyle style)
  else if style = deepObjectStyle then
    if explode then deepBind required paramName rawQuery shape
    else .error (.invalidStyleExplode style)
  else if style = formStyle then formBind explode required paramName rawQuery shape
  else .error (.invalidStyle style)

theorem unescapeE_esc (s : Str) : unescapeE (esc s) = Except.ok s := by
  rw [unescapeE, unescape_esc]

theorem mapM_esc (vs : List Str) : (vs.map esc).mapM unescapeE = Except.ok vs := by
  induction vs with
  | nil => rfl
  | cons v vs ih =>
    rw [List.map_cons, List.mapM_cons, unescapeE_esc, ih]
    rfl

theorem mapM_map_comp {α β γ : Type} (l : List α) (h : α → β) (g : β → Except BindErr γ) :
    (l.map h).mapM g = l.mapM fun a => g (h a) := by
  induction l with
  | nil => rfl
  | cons a l ih => rw [List.map_cons, List.mapM_cons, List.mapM_cons, ih]

theorem mapM_ok_of_forall {α β : Type} (l : List α) (g : α → Except BindErr β) (f : α → β)
    (h : ∀ a ∈ l, g a = Except.ok (f a)) : l.mapM g = Except.ok (l.map f) := by
  induction l with
  | nil => rfl
  | cons a l ih =>
    rw [List.mapM_cons, h a (List.mem_cons_self _ _),
      ih fun a ha => h a (List.mem_cons_of_mem _ ha), List.map_cons]
    rfl

theorem pairsOfTokens_flatten (fs : List (Str × Str)) :
    pairsOfTokens ((fs.map fun kv => [kv.1, kv.2]).flatten) = fs := by
  induction fs with
  | nil => rfl
  | cons kv fs ih =>
    rw [List.map_cons, List.flatten_cons]
    show pairsOfTokens (kv.1 :: kv.2 :: (fs.map fun kv => [kv.1, kv.2]).flatten) = kv :: fs
    rw [pairsOfTokens, ih]

theorem flatten_pair_map_esc (fs : List (Str × Str)) :
    (fs.map fun kv => [esc kv.1, esc kv.2]).flatten =
      ((fs.map fun kv => [kv.1, kv.2]).flatten).map esc := by
  induction fs with
  | nil => rfl
  | cons kv fs ih => simp [ih]

theorem flatten_pair_length (fs : List (Str × Str)) :
    ((fs.map fun kv => [kv.1, kv.2]).flatten).length = 2 * fs.length := by
  induction fs with
  | nil => rfl
  | cons kv fs ih => simp [ih]; ring

theorem lookup_getD_of_nodup (fs : List (Str × Str)) (h : (fs.map Prod.fst).Nodup) :
    (fs.map Prod.fst).map (fun n => (n, ((fs.lookup n).getD []))) = fs := by
  induction fs with
  | nil => rfl
  | cons kv fs ih =>
    obtain ⟨k, v⟩ := kv
    rw [List.map_cons] at h
    have hknotin : k ∉ fs.map Prod.fst := (List.nodup_cons.mp h).1
    have hnd := (List.nodup_cons.mp h).2
    rw [List.map_cons, List.map_cons]
    congr 1
    · simp [List.lookup]
    · calc (fs.map Prod.fst).map (fun n => (n, ((((k, v) :: fs).lookup n).getD []))) =
          (fs.map Prod.fst).map (fun n => (n, ((fs.lookup n).getD []))) := by
            apply List.map_congr_left
            intro n hn
            have hne : (n == k) = false := by
              apply beq_eq_false_iff_ne.mpr
              intro h2
              exact hknotin (h2 ▸ hn)
            simp [List.lookup, hne]
        _ = fs := ih hnd

theorem filterMap_eq_nil_of_none {α β : Type} {l : List α} {f : α → Option β}
    (h : ∀ a ∈ l, f a = none) : l.filterMap f = [] := by
  induction l with
  | nil => rfl
  | cons a l ih =>
    rw [List.filterMap_cons, h a (List.mem_cons_self _ _)]
    exact ih fun a ha => h a (List.mem_cons_of_mem _ ha)

theorem filterMap_key_single {fs : List (Str × Str)} {n v : Str}
    (hnd : (fs.map Prod.fst).Nodup) (hmem : (n, v) ∈ fs) :
    (fs.filterMap fun kv => if kv.1 = n then some (esc kv.2) else none) = [esc v] := by
  induction fs with
  | nil => simp at hmem
  | cons kv fs ih =>
    obtain ⟨k, w⟩ := kv
    rw [List.map_cons] at hnd
    have hknotin : k ∉ fs.map Prod.fst := (List.nodup_cons.mp hnd).1
    have hnd' := (List.nodup_cons.mp hnd).2
    rcases List.mem_cons.mp hmem with hh | ht
    · have hk : k = n := congrArg Prod.fst hh.symm
      have hv : w = v := congrArg Prod.snd hh.symm
      subst hk
      subst hv
      rw [List.filterMap_cons]
      have hnil : (fs.filterMap fun kv => if kv.1 = k then some (esc kv.2) else none) = [] := by
        apply filterMap_eq_nil_of_none
        intro kv hkv
        have hne : kv.1 ≠ k := by
          intro h2
          exact hknotin (h2 ▸ List.mem_map_of_mem Prod.fst hkv)
        simp [hne]
      simp [hnil]
    · have hkn : k ≠ n := by
        intro h2
        subst h2
        exact hknotin (List.mem_map_of_mem Prod.fst ht)
      rw [List.filterMap_cons]
      simp only [hkn, if_false]
      exact ih hnd' ht

theorem find_key_of_nodup {fs : List (Str × Str)} {n v : Str}
    (hnd : (fs.map Prod.fst).Nodup) (hmem : (n, v) ∈ fs) :
    (fs.find? fun q => q.1 == n) = some (n, v) := by
  induction fs with
  | nil => simp at hmem
  | cons kv fs ih =>
    obtain ⟨k, w⟩ := kv
    rw [List.map_cons] at hnd
    have hknotin : k ∉ fs.map Prod.fst := (List.nodup_cons.mp hnd).1
    have hnd' := (List.nodup_cons.mp hnd).2
    rcases List.mem_cons.mp hmem with hh | ht
    · have hk : k = n := congrArg Prod.fst hh.symm
      have hv : w = v := congrArg Prod.snd hh.symm
      subst hk
      subst hv
      rw [List.find?_cons_of_pos _ (by simp)]
    · have hkn : k ≠ n := by
        intro h2
        subst h2
        exact hknotin (List.mem_map_of_mem Prod.fst ht)
      rw [List.find?_cons_of_neg _ (by simpa using hkn)]
      exact ih hnd' ht

theorem zip_fst_snd (fs : List (Str × Str)) :
    (fs.map Prod.fst).zip (fs.map Prod.snd) = fs := by
  induction fs with
  | nil => rfl
  | cons kv fs ih => simp [ih]

theorem foldr_max_range (n a : Nat) :
    (List.range n).foldr Nat.max a = Nat.max a (n - 1) := by
  induction n generalizing a with
  | zero => simp
  | succ n ih =>
    rw [List.range_succ, List.foldr_append]
    simp only [List.foldr_cons, List.foldr_nil]
    rw [ih]
    simp only [Nat.add_sub_cancel, Nat.max_def]
    split_ifs <;> omega

theorem map_getD_range (xs : List Str) :
    (List.range xs.length).map (fun i => xs.getD i []) = xs := by
  induction xs with
  | nil => rfl
  | cons x xs ih =>
    rw [List.length_cons, List.range_succ_eq_map, List.map_cons, List.map_map]
    simp only [List.getD_cons_zero, Function.comp]
    congr 1

theorem find_enumFrom_map {ws : List Str} {k i : Nat} (hki : k ≤ i)
    (hlt : i < k + ws.length) :
    (((ws.enumFrom k).map fun p => (p.1, esc p.2)).find? fun q => q.1 == i) =
      some (i, esc (ws.getD (i - k) [])) := by
  induction ws generalizing k with
  | nil => simp at hlt; omega
  | cons w ws ih =>
    rw [List.enumFrom, List.map_cons]
    by_cases hik : i = k
    · subst hik
      rw [List.find?_cons_of_pos _ (by simp)]
      simp
    · have hklt : k + 1 ≤ i := by omega
      rw [List.find?_cons_of_neg _ (by simp; omega)]
      rw [ih hklt (by simp at hlt ⊢; omega)]
      have : i - k = (i - (k + 1)) + 1 := by omega
      rw [this, List.getD_cons_succ]

theorem pairsObj_scalars (fs : List (Str × Str)) :
    pairsObj (fs.map fun kv => (kv.1, DValue.scalar kv.2)) =
      fs.map fun kv => ('[' :: esc kv.1 ++ [']'], esc kv.2) := by
  induction fs with
  | nil => rfl
  | cons kv fs ih =>
    obtain ⟨k, v⟩ := kv
    rw [List.map_cons]
    show ((pairsAux (DValue.scalar v)).map fun q => ('[' :: esc k ++ ']' :: q.1, q.2)) ++
        pairsObj (fs.map fun kv => (kv.1, DValue.scalar kv.2)) = _
    rw [ih]
    rfl

theorem pairsArr_scalars (i : Nat) (vs : List Str) :
    pairsArr i (vs.map DValue.scalar) =
      (vs.enumFrom i).map fun p => ('[' :: natToStr p.1 ++ [']'], esc p.2) := by
  induction vs generalizing i with
  | nil => rfl
  | cons v vs ih =>
    rw [List.map_cons]
    show ((pairsAux (DValue.scalar v)).map fun q => ('[' :: natToStr i ++ ']' :: q.1, q.2)) ++
        pairsArr (i + 1) (vs.map DValue.scalar) = _
    rw [ih, List.enumFrom, List.map_cons]
    rfl

theorem marshal_deep_obj (fs : List (Str × Str)) (name : Str) :
    MarshalDeepObject (toDValue (.obj fs)) name =
      joinSep '&'
        ((fs.map fun kv => (name ++ ('[' :: esc kv.1 ++ [']']), esc kv.2)).map
          fun kv => kv.1 ++ '=' :: kv.2) := by
  rw [MarshalDeepObject, toDValue]
  show joinSep '&'
      ((pairsObj (fs.map fun kv => (kv.1, DValue.scalar kv.2))).map
        fun q => (name ++ q.1) ++ '=' :: q.2) = _
  rw [pairsObj_scalars, List.map_map, List.map_map]
  rfl

theorem marshal_deep_arr (vs : List Str) (name : Str) :
    MarshalDeepObject (toDValue (.arr vs)) name =
      joinSep '&'
        (((vs.enumFrom 0).map fun p => (name ++ ('[' :: natToStr p.1 ++ [']']), esc p.2)).map
          fun kv => kv.1 ++ '=' :: kv.2) := by
  rw [MarshalDeepObject, toDValue]
  show joinSep '&'
      ((pairsArr 0 (vs.map DValue.scalar)).map fun q => (name ++ q.1) ++ '=' :: q.2) = _
  rw [pairsArr_scalars, List.map_map, List.map_map]
  rfl

theorem deepDecoded_join (ps : List (Str × Str)) (name : Str)
    (hne : ps ≠ [])
    (hk : ∀ p ∈ ps, '&' ∉ p.1 ∧ '=' ∉ p.1)
    (hv : ∀ p ∈ ps, '&' ∉ p.2) :
    deepDecoded name (joinSep '&' (ps.map fun kv => kv.1 ++ '=' :: kv.2)) =
      ps.filterMap fun kv =>
        (unescape kv.1).bind fun k => (parseDeepSeg name k).map fun seg => (seg, kv.2) := by
  have hpieces : ∀ x ∈ ps.map fun kv => kv.1 ++ '=' :: kv.2, '&' ∉ x := by
    intro x hx
    obtain ⟨kv, hkv, rfl⟩ := List.mem_map.mp hx
    intro hmem
    rcases List.mem_append.mp hmem with hmem | hmem
    · exact (hk kv hkv).1 hmem
    · rcases List.mem_cons.mp hmem with hmem | hmem
      · exact absurd hmem (by decide)
      · exact hv kv hkv hmem
  have hpieces_ne : ∀ x ∈ ps.map fun kv => kv.1 ++ '=' :: kv.2, x ≠ [] := by
    intro x hx
    obtain ⟨kv, hkv, rfl⟩ := List.mem_map.mp hx
    simp
  have hmap_ne : ps.map (fun kv => kv.1 ++ '=' :: kv.2) ≠ [] := by simpa using hne
  have hraw : joinSep '&' (ps.map fun kv => kv.1 ++ '=' :: kv.2) ≠ [] :=
    joinSep_ne_nil hmap_ne hpieces_ne
  rw [deepDecoded, if_neg hraw, splitSep_joinSep hmap_ne hpieces, List.filterMap_map]
  apply filterMap_congr_mem
  intro kv hkv
  simp only [Function.comp_apply, cutEq_append (hk kv hkv).2]

theorem parseDeepSeg_bracket {seg : Str} (name : Str) (h1 : '[' ∉ seg) (h2 : ']' ∉ seg) :
    parseDeepSeg name (name ++ '[' :: (seg ++ [']'])) = some seg := by
  rw [parseDeepSeg]
  have htake : (name ++ '[' :: (seg ++ [']'])).take name.length = name :=
    List.take_left name ('[' :: (seg ++ [']']))
  have hdrop : (name ++ '[' :: (seg ++ [']'])).drop name.length = '[' :: (seg ++ [']']) :=
    List.drop_left name ('[' :: (seg ++ [']']))
  rw [htake, if_pos rfl, hdrop]
  have hlast : (seg ++ [']']).getLast? = some ']' := List.getLast?_concat seg
  have hdroplast : (seg ++ [']']).dropLast = seg := List.dropLast_concat
  simp only [hdroplast, hlast]
  simp [h1, h2]

theorem bindRaw_form (explode required : Bool) (name raw : Str) (shape : Shape) :
    BindRawQueryParameter formStyle explode required name raw shape =
      formBind explode required name raw shape := by
  rw [BindRawQueryParameter, if_neg (by decide), if_neg (by decide), if_neg (by decide),
    if_pos rfl]

theorem bindRaw_deep (required : Bool) (name raw : Str) (shape : Shape) :
    BindRawQueryParameter deepObjectStyle true required name raw shape =
      deepBind required name raw shape := by
  rw [BindRawQueryParameter, if_neg (by decide), if_neg (by decide), if_pos rfl, if_pos rfl]

theorem findRaw_single_self {name v : Str} (hn : '&' ∉ name ∧ '=' ∉ name ∧ '%' ∉ name)
    (hv : '&' ∉ v) : findRawQueryParam (name ++ '=' :: v) name = some [v] := by
  have h := findRawQueryParam_join [(name, v)] name (by simp)
    (by intro p hp; rcases List.mem_singleton.mp hp with rfl; exact ⟨hn.1, hn.2.1⟩)
    (by intro p hp; rcases List.mem_singleton.mp hp with rfl; exact hv)
  simp only [List.map_cons, List.map_nil, joinSep] at h
  rw [h]
  simp [unescape_clean hn.2.2]

theorem rt_form_scalar (explode : Bool) (name s : Str)
    (hn : '&' ∉ name ∧ '=' ∉ name ∧ '%' ∉ name) :
    BindRawQueryParameter formStyle explode true name (name ++ '=' :: esc s) .scalarS =
      .ok (.bound (.scalar s)) := by
  rw [bindRaw_form]
  rw [formBind]
  rw [findRaw_single_self hn (esc_not_special (by decide))]
  simp [unescapeE_esc]
  exact fun names h hx => nomatch h

theorem rt_form_arr_false (name : Str) (vs : List Str)
    (hn : '&' ∉ name ∧ '=' ∉ name ∧ '%' ∉ name) (hvs : vs ≠ []) :
    BindRawQueryParameter formStyle false true name
        (name ++ '=' :: joinSep ',' (vs.map esc)) .arrS =
      .ok (.bound (.arr vs)) := by
  have hv : '&' ∉ joinSep ',' (vs.map esc) := by
    intro hmem
    rcases mem_joinSep hmem with h | ⟨x, hx, hc⟩
    · exact absurd h (by decide)
    · obtain ⟨y, hy, rfl⟩ := List.mem_map.mp hx
      exact esc_not_special (by decide) hc
  have hmapne : vs.map esc ≠ [] := by simpa using hvs
  have hcfree : ∀ x ∈ vs.map esc, ',' ∉ x := by
    intro x hx
    obtain ⟨y, hy, rfl⟩ := List.mem_map.mp hx
    exact esc_not_special (by decide)
  rw [bindRaw_form, formBind, findRaw_single_self hn hv]
  simp only [List.length_cons, List.length_nil, List.headD_cons]
  rw [if_neg (by simp)]
  rw [splitSep_joinSep hmapne hcfree, mapM_esc]
  · rfl
  · exact fun names h hx => nomatch h

theorem findRaw_repeat_self {name : Str} (vs : List Str)
    (hn : '&' ∉ name ∧ '=' ∉ name ∧ '%' ∉ name) (hvs : vs ≠ []) :
    findRawQueryParam (joinSep '&' (vs.map fun x => name ++ '=' :: esc x)) name =
      some (vs.map esc) := by
  have h := findRawQueryParam_join (vs.map fun x => (name, esc x)) name
    (by simpa using hvs)
    (by
      intro p hp
      obtain ⟨y, hy, rfl⟩ := List.mem_map.mp hp
      exact ⟨hn.1, hn.2.1⟩)
    (by
      intro p hp
      obtain ⟨y, hy, rfl⟩ := List.mem_map.mp hp
      exact esc_not_special (by decide))
  rw [List.map_map] at h
  have hps : (vs.map fun x => (name, esc x)).filterMap
      (fun kv => if unescape kv.1 = some name then some kv.2 else none) = vs.map esc := by
    rw [List.filterMap_map]
    have : ∀ x ∈ vs, ((fun kv : Str × Str =>
        if unescape kv.1 = some name then some kv.2 else none) ∘ fun x => (name, esc x)) x =
        some (esc x) := by
      intro x hx
      simp [unescape_clean hn.2.2]
    rw [filterMap_congr_mem this]
    rw [show (fun a : Str => some (esc a)) = some ∘ esc from rfl, List.filterMap_eq_map]
  rw [hps] at h
  rw [if_neg (by simpa using hvs)] at h
  exact h

theorem rt_form_arr_true (name : Str) (vs : List Str)
    (hn : '&' ∉ name ∧ '=' ∉ name ∧ '%' ∉ name) (hvs : vs ≠ []) :
    BindRawQueryParameter formStyle true true name
        (joinSep '&' (vs.map fun x => name ++ '=' :: esc x)) .arrS =
      .ok (.bound (.arr vs)) := by
  rw [bindRaw_form, formBind, findRaw_repeat_self vs hn hvs]
  · show (do
        let ws ← (vs.map esc).mapM unescapeE
        pure (BindResult.bound (Value.arr ws)) : Except BindErr BindResult) =
      Except.ok (BindResult.bound (Value.arr vs))
    rw [mapM_esc]
    rfl
  · exact fun names h hx => nomatch h

theorem rt_form_obj_false (name : Str) (fs : List (Str × Str))
    (hn : '&' ∉ name ∧ '=' ∉ name ∧ '%' ∉ name) (hfs : fs ≠ [])
    (hnd : (fs.map Prod.fst).Nodup) :
    BindRawQueryParameter formStyle false true name
        (name ++ '=' :: joinSep ',' ((fs.map fun kv => [esc kv.1, esc kv.2]).flatten))
        (.objS (fs.map Prod.fst)) =
      .ok (.bound (.obj fs)) := by
  have htoks : ∀ x ∈ (fs.map fun kv => [esc kv.1, esc kv.2]).flatten, ∃ y, x = esc y := by
    intro x hx
    obtain ⟨l, hl, hxl⟩ := List.mem_flatten.mp hx
    obtain ⟨kv, hkv, rfl⟩ := List.mem_map.mp hl
    rcases List.mem_cons.mp hxl with rfl | hxl
    · exact ⟨kv.1, rfl⟩
    · rcases List.mem_cons.mp hxl with rfl | hxl
      · exact ⟨kv.2, rfl⟩
      · simp at hxl
  have hv : '&' ∉ joinSep ',' ((fs.map fun kv => [esc kv.1, esc kv.2]).flatten) := by
    intro hmem
    rcases mem_joinSep hmem with h | ⟨x, hx, hc⟩
    · exact absurd h (by decide)
    · obtain ⟨y, rfl⟩ := htoks x hx
      exact esc_not_special (by decide) hc
  have hflatne : (fs.map fun kv => [esc kv.1, esc kv.2]).flatten ≠ [] := by
    cases fs with
    | nil => exact absurd rfl hfs
    | cons kv fs => simp
  have hcfree : ∀ x ∈ (fs.map fun kv => [esc kv.1, esc kv.2]).flatten, ',' ∉ x := by
    intro x hx
    obtain ⟨y, rfl⟩ := htoks x hx
    exact esc_not_special (by decide)
  rw [bindRaw_form]
  rw [show formBind false true name
      (name ++ '=' :: joinSep ',' ((fs.map fun kv => [esc kv.1, esc kv.2]).flatten))
      (.objS (fs.map Prod.fst)) =
    match findRawQueryParam
        (name ++ '=' :: joinSep ',' ((fs.map fun kv => [esc kv.1, esc kv.2]).flatten)) name with
    | none => Except.error (BindErr.requiredMissing name)
    | some values =>
      if false = false ∧ values.length > 1 then Except.error (BindErr.notExploded name)
      else
        let toks := splitSep ',' (values.headD [])
        if toks.length % 2 ≠ 0 then Except.error BindErr.shapeMismatch
        else do
          let ts ← toks.mapM unescapeE
          pure (BindResult.bound (Value.obj ((fs.map Prod.fst).map
            fun n => (n, ((pairsOfTokens ts).lookup n).getD []))))
    from rfl]
  rw [findRaw_single_self hn hv]
  simp only [List.headD_cons]
  rw [if_neg (by simp)]
  rw [splitSep_joinSep hflatne hcfree]
  rw [if_neg (by
    rw [flatten_pair_map_esc, List.length_map, flatten_pair_length]
    simp [Nat.mul_mod_right])]
  rw [flatten_pair_map_esc, mapM_esc]
  show Except.ok (BindResult.bound (Value.obj ((fs.map Prod.fst).map
      fun n => (n, ((pairsOfTokens ((fs.map fun kv => [kv.1, kv.2]).flatten)).lookup n).getD [])))) = _
  rw [pairsOfTokens_flatten, lookup_getD_of_nodup fs hnd]

theorem findRaw_exploded_field {fs : List (Str × Str)} {k v : Str}
    (hnd : (fs.map Prod.fst).Nodup) (hmem : (k, v) ∈ fs) :
    findRawQueryParam (joinSep '&' (fs.map fun kv => esc kv.1 ++ '=' :: esc kv.2)) k =
      some [esc v] := by
  have h := findRawQueryParam_join (fs.map fun kv => (esc kv.1, esc kv.2)) k
    (by
      intro hcontr
      rw [List.map_eq_nil_iff] at hcontr
      subst hcontr
      simp at hmem)
    (by
      intro p hp
      obtain ⟨kv, hkv, rfl⟩ := List.mem_map.mp hp
      exact ⟨esc_not_special (by decide), esc_not_special (by decide)⟩)
    (by
      intro p hp
      obtain ⟨kv, hkv, rfl⟩ := List.mem_map.mp hp
      exact esc_not_special (by decide))
  rw [List.map_map] at h
  have hfm : (fs.map fun kv => (esc kv.1, esc kv.2)).filterMap
      (fun kv => if unescape kv.1 = some k then some kv.2 else none) =
      fs.filterMap fun kv => if kv.1 = k then some (esc kv.2) else none := by
    rw [List.filterMap_map]
    apply filterMap_congr_mem
    intro kv hkv
    simp [unescape_esc]
  rw [hfm, filterMap_key_single hnd hmem] at h
  rw [if_neg (by simp)] at h
  exact h

theorem rt_form_obj_true (name : Str) (fs : List (Str × Str)) (hfs : fs ≠ [])
    (hnd : (fs.map Prod.fst).Nodup) :
    BindRawQueryParameter formStyle true true name
        (joinSep '&' (fs.map fun kv => esc kv.1 ++ '=' :: esc kv.2))
        (.objS (fs.map Prod.fst)) =
      .ok (.bound (.obj fs)) := by
  rw [bindRaw_form]
  rw [show formBind true true name
      (joinSep '&' (fs.map fun kv => esc kv.1 ++ '=' :: esc kv.2))
      (.objS (fs.map Prod.fst)) =
    explodedObjectBind true name (joinSep '&' (fs.map fun kv => esc kv.1 ++ '=' :: esc kv.2))
      (fs.map Prod.fst) from rfl]
  rw [explodedObjectBind]
  rw [if_pos (by
    rcases fs with _ | ⟨kv, fs'⟩
    · exact absurd rfl hfs
    · apply List.any_eq_true.mpr
      refine ⟨kv.1, List.mem_cons_self _ _, ?_⟩
      rw [findRaw_exploded_field hnd (List.mem_cons_self _ _)]
      rfl)]
  rw [mapM_map_comp]
  rw [mapM_ok_of_forall fs _ Prod.snd (by
    intro kv hkv
    obtain ⟨k2, v2⟩ := kv
    show (match findRawQueryParam (joinSep '&' (fs.map fun kv => esc kv.1 ++ '=' :: esc kv.2)) k2 with
      | some (v :: _) => unescapeE v
      | _ => pure []) = _
    rw [findRaw_exploded_field hnd hkv]
    exact unescapeE_esc v2)]
  show Except.ok (BindResult.bound (Value.obj ((fs.map Prod.fst).zip (fs.map Prod.snd)))) = _
  rw [zip_fst_snd]

theorem deep_obj_decoded (name : Str) (fs : List (Str × Str))
    (hn : '&' ∉ name ∧ '=' ∉ name ∧ '%' ∉ name) (hfs : fs ≠ [])
    (hbr : ∀ k ∈ fs.map Prod.fst, '[' ∉ k ∧ ']' ∉ k) :
    deepDecoded name
        (joinSep '&'
          ((fs.map fun kv => (name ++ ('[' :: esc kv.1 ++ [']']), esc kv.2)).map
            fun kv => kv.1 ++ '=' :: kv.2)) =
      fs.map fun kv => (kv.1, esc kv.2) := by
  rw [deepDecoded_join _ name (by simpa using hfs)
    (by
      intro p hp
      obtain ⟨kv, hkv, rfl⟩ := List.mem_map.mp hp
      constructor
      · intro hmem
        rcases List.mem_append.mp hmem with hmem | hmem
        · exact hn.1 hmem
        · rcases List.mem_cons.mp hmem with hmem | hmem
          · exact absurd hmem (by decide)
          · rcases List.mem_append.mp hmem with hmem | hmem
            · exact esc_not_special (by decide) hmem
            · simp at hmem
      · intro hmem
        rcases List.mem_append.mp hmem with hmem | hmem
        · exact hn.2.1 hmem
        · rcases List.mem_cons.mp hmem with hmem | hmem
          · exact absurd hmem (by decide)
          · rcases List.mem_append.mp hmem with hmem | hmem
            · exact esc_not_special (by decide) hmem
            · simp at hmem)
    (by
      intro p hp
      obtain ⟨kv, hkv, rfl⟩ := List.mem_map.mp hp
      exact esc_not_special (by decide))]
  rw [List.filterMap_map]
  have hpt : ∀ kv ∈ fs,
      ((fun kv : Str × Str =>
          (unescape kv.1).bind fun k => (parseDeepSeg name k).map fun seg => (seg, kv.2)) ∘
        fun kv => (name ++ ('[' :: esc kv.1 ++ [']']), esc kv.2)) kv =
      some (kv.1, esc kv.2) := by
    intro kv hkv
    have hu : unescape (name ++ ('[' :: esc kv.1 ++ [']'])) =
        some (name ++ ('[' :: (kv.1 ++ [']']))) := by
      rw [unescape_clean_append hn.2.2]
      rw [show ('[' :: esc kv.1 ++ [']']) = '[' :: (esc kv.1 ++ [']']) from rfl]
      rw [unescape_cons_of_ne (by decide), unescape_esc_append]
      rfl
    have hb := hbr kv.1 (List.mem_map_of_mem Prod.fst hkv)
    simp only [Function.comp_apply, hu, Option.some_bind]
    rw [parseDeepSeg_bracket name hb.1 hb.2]
    rfl
  rw [filterMap_congr_mem hpt]
  rw [show (fun kv : Str × Str => some (kv.1, esc kv.2)) =
    some ∘ (fun kv : Str × Str => (kv.1, esc kv.2)) from rfl, List.filterMap_eq_map]

theorem rt_deep_obj (name : Str) (fs : List (Str × Str))
    (hn : '&' ∉ name ∧ '=' ∉ name ∧ '%' ∉ name) (hfs : fs ≠ [])
    (hnd : (fs.map Prod.fst).Nodup)
    (hbr : ∀ k ∈ fs.map Prod.fst, '[' ∉ k ∧ ']' ∉ k) :
    BindRawQueryParameter deepObjectStyle true true name
        (MarshalDeepObject (toDValue (.obj fs)) name) (.objS (fs.map Prod.fst)) =
      .ok (.bound (.obj fs)) := by
  rw [bindRaw_deep, marshal_deep_obj]
  rw [show deepBind true name
      (joinSep '&'
        ((fs.map fun kv => (name ++ ('[' :: esc kv.1 ++ [']']), esc kv.2)).map
          fun kv => kv.1 ++ '=' :: kv.2))
      (.objS (fs.map Prod.fst)) =
    (let raw := joinSep '&'
        ((fs.map fun kv => (name ++ ('[' :: esc kv.1 ++ [']']), esc kv.2)).map
          fun kv => kv.1 ++ '=' :: kv.2)
     if deepDecoded name raw = [] then
       Except.error (BindErr.requiredMissing name)
     else do
       let vals ← (fs.map Prod.fst).mapM fun n =>
         match (deepDecoded name raw).find? fun q => q.1 == n with
         | some q => unescapeE q.2
         | none => pure []
       pure (BindResult.bound (Value.obj ((fs.map Prod.fst).zip vals))))
    from rfl]
  simp only [deep_obj_decoded name fs hn hfs hbr]
  rw [if_neg (by simpa using hfs)]
  rw [mapM_map_comp]
  rw [mapM_ok_of_forall fs _ Prod.snd (by
    intro kv hkv
    obtain ⟨k2, v2⟩ := kv
    have hfind : ((fs.map fun kv => (kv.1, esc kv.2)).find? fun q => q.1 == k2) =
        some (k2, esc v2) := by
      apply find_key_of_nodup
      · rw [List.map_map]
        simpa using hnd
      · exact List.mem_map_of_mem (fun kv => (kv.1, esc kv.2)) hkv
    show (match (fs.map fun kv => (kv.1, esc kv.2)).find? fun q => q.1 == k2 with
      | some q => unescapeE q.2
      | none => pure []) = _
    rw [hfind]
    exact unescapeE_esc v2)]
  show Except.ok (BindResult.bound (Value.obj ((fs.map Prod.fst).zip (fs.map Prod.snd)))) = _
  rw [zip_fst_snd]

theorem natToStr_clean (n : Nat) :
    '&' ∉ natToStr n ∧ '=' ∉ natToStr n ∧ '%' ∉ natToStr n ∧
      '[' ∉ natToStr n ∧ ']' ∉ natToStr n :=
  ⟨natToStr_not_mem (by decide), natToStr_not_mem (by decide), natToStr_not_mem (by decide),
    natToStr_not_mem (by decide), natToStr_not_mem (by decide)⟩

theorem deep_arr_decoded (name : Str) (vs : List Str)
    (hn : '&' ∉ name ∧ '=' ∉ name ∧ '%' ∉ name) (hvs : vs ≠ []) :
    deepDecoded name
        (joinSep '&'
          (((vs.enumFrom 0).map fun p => (name ++ ('[' :: natToStr p.1 ++ [']']), esc p.2)).map
            fun kv => kv.1 ++ '=' :: kv.2)) =
      (vs.enumFrom 0).map fun p => (natToStr p.1, esc p.2) := by
  have henum : vs.enumFrom 0 ≠ [] := by
    cases vs with
    | nil => exact absurd rfl hvs
    | cons v vs => simp [List.enumFrom]
  rw [deepDecoded_join _ name (by simpa using henum)
    (by
      intro p hp
      obtain ⟨q, hq, rfl⟩ := List.mem_map.mp hp
      constructor
      · intro hmem
        rcases List.mem_append.mp hmem with hmem | hmem
        · exact hn.1 hmem
        · rcases List.mem_cons.mp hmem with hmem | hmem
          · exact absurd hmem (by decide)
          · rcases List.mem_append.mp hmem with hmem | hmem
            · exact (natToStr_clean q.1).1 hmem
            · simp at hmem
      · intro hmem
        rcases List.mem_append.mp hmem with hmem | hmem
        · exact hn.2.1 hmem
        · rcases List.mem_cons.mp hmem with hmem | hmem
          · exact absurd hmem (by decide)
          · rcases List.mem_append.mp hmem with hmem | hmem
            · exact (natToStr_clean q.1).2.1 hmem
            · simp at hmem)
    (by
      intro p hp
      obtain ⟨q, hq, rfl⟩ := List.mem_map.mp hp
      exact esc_not_special (by decide))]
  rw [List.filterMap_map]
  have hpt : ∀ q ∈ vs.enumFrom 0,
      ((fun kv : Str × Str =>
          (unescape kv.1).bind fun k => (parseDeepSeg name k).map fun seg => (seg, kv.2)) ∘
        fun p => (name ++ ('[' :: natToStr p.1 ++ [']']), esc p.2)) q =
      some (natToStr q.1, esc q.2) := by
    intro q hq
    have hclean : '%' ∉ name ++ ('[' :: natToStr q.1 ++ [']']) := by
      intro hmem
      rcases List.mem_append.mp hmem with hmem | hmem
      · exact hn.2.2 hmem
      · rcases List.mem_cons.mp hmem with hmem | hmem
        · exact absurd hmem (by decide)
        · rcases List.mem_append.mp hmem with hmem | hmem
          · exact (natToStr_clean q.1).2.2.1 hmem
          · simp at hmem
    simp only [Function.comp_apply, unescape_clean hclean, Option.some_bind]
    rw [show (name ++ ('[' :: natToStr q.1 ++ [']'])) =
      name ++ '[' :: (natToStr q.1 ++ [']']) from rfl]
    rw [parseDeepSeg_bracket name (natToStr_clean q.1).2.2.2.1 (natToStr_clean q.1).2.2.2.2]
    rfl
  rw [filterMap_congr_mem hpt]
  rw [show (fun q : Nat × Str => some (natToStr q.1, esc q.2)) =
    some ∘ (fun q : Nat × Str => (natToStr q.1, esc q.2)) from rfl, List.filterMap_eq_map]

theorem deepBind_arr (name raw : Str) (hde : deepDecoded name raw ≠ [])
    (hix : deepIdxed name raw ≠ []) :
    deepBind true name raw .arrS = (do
      let ws ← (List.range (((deepIdxed name raw).map Prod.fst).foldr Nat.max 0 + 1)).mapM
        fun i =>
          match (deepIdxed name raw).find? fun q => q.1 == i with
          | some q => unescapeE q.2
          | none => pure []
      pure (BindResult.bound (Value.arr ws))) := by
  show (if deepDecoded name raw = [] then Except.error (BindErr.requiredMissing name)
    else if deepIdxed name raw = [] then Except.error BindErr.shapeMismatch
    else do
      let ws ← (List.range (((deepIdxed name raw).map Prod.fst).foldr Nat.max 0 + 1)).mapM
        fun i =>
          match (deepIdxed name raw).find? fun q => q.1 == i with
          | some q => unescapeE q.2
          | none => pure []
      pure (BindResult.bound (Value.arr ws))) = _
  rw [if_neg hde, if_neg hix]

theorem deep_arr_idxed (name : Str) (vs : List Str)
    (hn : '&' ∉ name ∧ '=' ∉ name ∧ '%' ∉ name) (hvs : vs ≠ []) :
    deepIdxed name
        (joinSep '&'
          (((vs.enumFrom 0).map fun p => (name ++ ('[' :: natToStr p.1 ++ [']']), esc p.2)).map
            fun kv => kv.1 ++ '=' :: kv.2)) =
      (vs.enumFrom 0).map fun p => (p.1, esc p.2) := by
  rw [deepIdxed, deep_arr_decoded name vs hn hvs, List.filterMap_map]
  have hpt : ∀ q ∈ vs.enumFrom 0,
      ((fun q : Str × Str => (natFromStr q.1).map fun i => (i, q.2)) ∘
        fun p => (natToStr p.1, esc p.2)) q = some (q.1, esc q.2) := by
    intro q hq
    simp only [Function.comp_apply, natFromStr_natToStr, Option.map_some']
  rw [filterMap_congr_mem hpt]
  rw [show (fun q : Nat × Str => some (q.1, esc q.2)) =
    some ∘ (fun q : Nat × Str => (q.1, esc q.2)) from rfl, List.filterMap_eq_map]

theorem rt_deep_arr (name : Str) (vs : List Str)
    (hn : '&' ∉ name ∧ '=' ∉ name ∧ '%' ∉ name) (hvs : vs ≠ []) :
    BindRawQueryParameter deepObjectStyle true true name
        (MarshalDeepObject (toDValue (.arr vs)) name) .arrS =
      .ok (.bound (.arr vs)) := by
  have hlen : 1 ≤ vs.length := List.length_pos.mpr hvs
  have hdec := deep_arr_decoded name vs hn hvs
  have hidx := deep_arr_idxed name vs hn hvs
  have henumne : (vs.enumFrom 0).map (fun p => (p.1, esc p.2)) ≠ [] := by
    cases vs with
    | nil => exact absurd rfl hvs
    | cons v vs => simp [List.enumFrom]
  rw [bindRaw_deep, marshal_deep_arr]
  rw [deepBind_arr _ _ (by rw [hdec]; simpa using henumne) (by rw [hidx]; exact henumne)]
  simp only [hidx]
  have hfst : (((vs.enumFrom 0).map fun p => (p.1, esc p.2)).map Prod.fst).foldr Nat.max 0 + 1 =
      vs.length := by
    rw [List.map_map]
    rw [show (Prod.fst ∘ fun p : Nat × Str => (p.1, esc p.2)) = Prod.fst from rfl]
    rw [List.enumFrom_map_fst, ← List.range_eq_range', foldr_max_range]
    have h0 : Nat.max 0 (vs.length - 1) = vs.length - 1 := Nat.max_eq_right (Nat.zero_le _)
    omega
  rw [hfst]
  rw [mapM_ok_of_forall (List.range vs.length) _ (fun i => vs.getD i []) (by
    intro i hi
    have hilt : i < vs.length := List.mem_range.mp hi
    show (match ((vs.enumFrom 0).map fun p => (p.1, esc p.2)).find? fun q => q.1 == i with
      | some q => unescapeE q.2
      | none => pure []) = _
    rw [find_enumFrom_map (Nat.zero_le i) (by omega)]
    simp only [Nat.sub_zero]
    exact unescapeE_esc _)]
  rw [map_getD_range]
  rfl

/-- Well-formedness of a parameter name for the raw query wire format: it
contains none of the pair and escape delimiters unescaped. -/
abbrev wfName (name : Str) : Prop := '&' ∉ name ∧ '=' ∉ name ∧ '%' ∉ name

/-- Well-formedness of a flat value for a given style: a scalar is only
encodable under form, arrays and objects must be nonempty, object field
names are pairwise distinct, and under deepObject the field names carry no
bracket delimiters. -/
abbrev wfValue (style : Str) (v : Value) : Prop :=
  match v with
  | .scalar _ => style = formStyle
  | .arr vs => vs ≠ []
  | .obj fs => fs ≠ [] ∧ (fs.map Prod.fst).Nodup ∧
      (style = deepObjectStyle → ∀ k ∈ fs.map Prod.fst, '[' ∉ k ∧ ']' ∉ k)

/-- C1 (amended): for the supported style/explode combinations — form with
explode true or false, and deepObject with explode true — and every value
that is a scalar (form only), a nonempty array of scalars, or a nonempty
flat object of scalars with pairwise-distinct field names (bracket-free
under deepObject), with a parameter name free of unescaped delimiter
characters, binding the string produced by the style encoder back into a
zero destination of the same shape succeeds and yields the original value:
the encoder succeeds with some wire string `w`, and
`BindRawQueryParameter style explode true name w (shapeOf v)` returns
exactly `v`. -/
theorem c1_round_trip_amended (style : Str) (explode : Bool) (name : Str) (v : Value)
    (hsty : style = formStyle ∨ (style = deepObjectStyle ∧ explode = true))
    (hname : wfName name) (hv : wfValue style v) :
    ∃ w, StyleParamWithLocation style explode name .query v = .ok w ∧
      BindRawQueryParameter style explode true name w (shapeOf v) = .ok (.bound v) := by
  rcases hsty with rfl | ⟨rfl, rfl⟩
  · cases v with
    | scalar s =>
      refine ⟨name ++ '=' :: esc s, ?_, rt_form_scalar explode name s hname⟩
      rw [StyleParamWithLocation, if_pos rfl]
    | arr vs =>
      cases explode
      · refine ⟨name ++ '=' :: joinSep ',' (vs.map esc), ?_,
          rt_form_arr_false name vs hname hv⟩
        rw [StyleParamWithLocation, if_pos rfl]
      · refine ⟨joinSep '&' (vs.map fun x => name ++ '=' :: esc x), ?_,
          rt_form_arr_true name vs hname hv⟩
        rw [StyleParamWithLocation, if_pos rfl]
    | obj fs =>
      cases explode
      · refine ⟨name ++ '=' :: joinSep ',' ((fs.map fun kv => [esc kv.1, esc kv.2]).flatten),
          ?_, rt_form_obj_false name fs hname hv.1 hv.2.1⟩
        rw [StyleParamWithLocation, if_pos rfl]
      · refine ⟨joinSep '&' (fs.map fun kv => esc kv.1 ++ '=' :: esc kv.2), ?_,
          rt_form_obj_true name fs hv.1 hv.2.1⟩
        rw [StyleParamWithLocation, if_pos rfl]
  · cases v with
    | scalar s =>
      exfalso
      have h2 : deepObjectStyle = formStyle := hv
      exact absurd h2 (by decide)
    | arr vs =>
      refine ⟨MarshalDeepObject (toDValue (.arr vs)) name, ?_, rt_deep_arr name vs hname hv⟩
      rw [StyleParamWithLocation, if_neg (by decide), if_pos rfl, if_pos rfl]
    | obj fs =>
      refine ⟨MarshalDeepObject (toDValue (.obj fs)) name, ?_,
        rt_deep_obj name fs hname hv.1 hv.2.1 (hv.2.2 rfl)⟩
      rw [StyleParamWithLocation, if_neg (by decide), if_pos rfl, if_pos rfl]

/-- Witness for C1's amended round-trip theorem at a concrete input. -/
theorem c1_round_trip_witness :
    ∃ w, StyleParamWithLocation formStyle true ("color".toList) .query
        (.arr ["red".toList, "blue".toList]) = .ok w ∧
      BindRawQueryParameter formStyle true true ("color".toList) w
        (shapeOf (.arr ["red".toList, "blue".toList])) =
        .ok (.bound (.arr ["red".toList, "blue".toList])) :=
  c1_round_trip_amended formStyle true ("color".toList)
    (.arr ["red".toList, "blue".toList]) (Or.inl rfl) (by decide) (by decide)

/-- C1 counterexample: the claim as stated fails on the empty array — under
form / explode=false the encoder emits `color=`, and binding that back into
an array destination yields a one-element array holding the empty string,
not the original empty array (a zero-length array is unrepresentable in
this token format). -/
theorem c1_counterexample :
    StyleParamWithLocation formStyle false ("color".toList) .query (.arr []) =
      .ok ("color=".toList) ∧
    BindRawQueryParameter formStyle false true ("color".toList) ("color=".toList) .arrS =
      .ok (.bound (.arr [[]])) ∧
    BindResult.bound (.arr [[]]) ≠ BindResult.bound (.arr []) := by decide

/-- Absence of a parameter from a query for a given destination shape: for
an exploded object destination no declared field name occurs, otherwise the
parameter name itself is not found. -/
abbrev absentFor (explode : Bool) (shape : Shape) (name raw : Str) : Prop :=
  match shape, explode with
  | .objS names, true => ∀ n ∈ names, findRawQueryParam raw n = none
  | _, _ => findRawQueryParam raw name = none

/-- C5: for every form-style query binding call — if the parameter is
absent and the call is optional, it succeeds leaving the destination at its
zero/default (nil) value; if the parameter is absent and the call is marked
required, it returns an error naming the parameter; if the parameter is
present with an empty string and the destination is an optional scalar, it
succeeds with the destination at its zero value. -/
theorem c5_presence_resolution (explode : Bool) (name raw : Str) (shape : Shape) :
    (absentFor explode shape name raw →
      BindRawQueryParameter formStyle explode false name raw shape = .ok .absent) ∧
    (absentFor explode shape name raw →
      BindRawQueryParameter formStyle explode true name raw shape =
        .error (.requiredMissing name)) ∧
    (findRawQueryParam raw name = some [[]] →
      BindRawQueryParameter formStyle explode false name raw .scalarS =
        .ok (.bound (.scalar []))) ∧
    (∃ a b, errMsg (.requiredMissing name) = a ++ name ++ b) := by
  refine ⟨?_, ?_, ?_, ⟨"query parameter ".toList, " is required".toList, by simp [errMsg]⟩⟩
  · intro h
    rw [bindRaw_form]
    cases shape with
    | scalarS =>
      cases explode <;>
        · show (match findRawQueryParam raw name with
            | none => Except.ok BindResult.absent
            | some values => _) = _
          rw [show findRawQueryParam raw name = none from h]
    | arrS =>
      cases explode <;>
        · show (match findRawQueryParam raw name with
            | none => Except.ok BindResult.absent
            | some values => _) = _
          rw [show findRawQueryParam raw name = none from h]
    | objS names =>
      cases explode with
      | false =>
        show (match findRawQueryParam raw name with
          | none => Except.ok BindResult.absent
          | some values => _) = _
        rw [show findRawQueryParam raw name = none from h]
      | true =>
        show explodedObjectBind false name raw names = _
        rw [explodedObjectBind, if_neg (by
          intro hc
          obtain ⟨n, hn, hsome⟩ := List.any_eq_true.mp hc
          rw [h n hn] at hsome
          exact absurd hsome (by decide))]
        rfl
  · intro h
    rw [bindRaw_form]
    cases shape with
    | scalarS =>
      cases explode <;>
        · show (match findRawQueryParam raw name with
            | none => Except.error (BindErr.requiredMissing name)
            | some values => _) = _
          rw [show findRawQueryParam raw name = none from h]
    | arrS =>
      cases explode <;>
        · show (match findRawQueryParam raw name with
            | none => Except.error (BindErr.requiredMissing name)
            | some values => _) = _
          rw [show findRawQueryParam raw name = none from h]
    | objS names =>
      cases explode with
      | false =>
        show (match findRawQueryParam raw name with
          | none => Except.error (BindErr.requiredMissing name)
          | some values => _) = _
        rw [show findRawQueryParam raw name = none from h]
      | true =>
        show explodedObjectBind true name raw names = _
        rw [explodedObjectBind, if_neg (by
          intro hc
          obtain ⟨n, hn, hsome⟩ := List.any_eq_true.mp hc
          rw [h n hn] at hsome
          exact absurd hsome (by decide))]
        rfl
  · intro h
    rw [bindRaw_form]
    cases explode <;>
      · show (match findRawQueryParam raw name with
          | none => _
          | some values => _) = _
        rw [h]
        rfl

/-- Witness for C5 at concrete inputs: the parameter `color` is absent from
`other=red` (optional succeeds with the default, required errors), and
present with the empty string in `color=` (optional scalar gets the zero
value). -/
theorem c5_presence_witness :
    BindRawQueryParameter formStyle false false ("color".toList) ("other=red".toList) .arrS =
      .ok .absent ∧
    BindRawQueryParameter formStyle false true ("color".toList) ("other=red".toList) .arrS =
      .error (.requiredMissing ("color".toList)) ∧
    BindRawQueryParameter formStyle false false ("color".toList) ("color=".toList) .scalarS =
      .ok (.bound (.scalar [])) :=
  ⟨(c5_presence_resolution false ("color".toList) ("other=red".toList) .arrS).1 (by decide),
   (c5_presence_resolution false ("color".toList) ("other=red".toList) .arrS).2.1 (by decide),
   (c5_presence_resolution false ("color".toList) ("color=".toList) .scalarS).2.2.1 (by decide)⟩

/-- C6: when the parameter's key occurs with more than one value in the raw
query, binding with style form and explode=false fails with the
"not exploded" error (for every destination shape and required flag), and
the error message contains the words "not exploded". -/
theorem c6_duplicate_not_exploded (required : Bool) (name raw : Str) (shape : Shape)
    (vs : List Str) (hfind : findRawQueryParam raw name = some vs) (hlen : 2 ≤ vs.length) :
    BindRawQueryParameter formStyle false required name raw shape =
      .error (.notExploded name) ∧
    ∃ a b, errMsg (.notExploded name) = a ++ "not exploded".toList ++ b := by
  constructor
  · rw [bindRaw_form]
    have hgt : (false = false ∧ vs.length > 1) := ⟨rfl, by omega⟩
    cases shape with
    | scalarS =>
      show (match findRawQueryParam raw name with
        | none => _
        | some values =>
          if false = false ∧ values.length > 1 then Except.error (BindErr.notExploded name)
          else _) = _
      rw [hfind]
      show (if false = false ∧ vs.length > 1 then Except.error (BindErr.notExploded name)
        else _) = _
      rw [if_pos hgt]
    | arrS =>
      show (match findRawQueryParam raw name with
        | none => _
        | some values =>
          if false = false ∧ values.length > 1 then Except.error (BindErr.notExploded name)
          else _) = _
      rw [hfind]
      show (if false = false ∧ vs.length > 1 then Except.error (BindErr.notExploded name)
        else _) = _
      rw [if_pos hgt]
    | objS names =>
      show (match findRawQueryParam raw name with
        | none => _
        | some values =>
          if false = false ∧ values.length > 1 then Except.error (BindErr.notExploded name)
          else _) = _
      rw [hfind]
      show (if false = false ∧ vs.length > 1 then Except.error (BindErr.notExploded name)
        else _) = _
      rw [if_pos hgt]
  · refine ⟨("query parameter ".toList ++ name) ++ " has multiple values, but is ".toList,
      [], ?_⟩
    simp only [errMsg, List.append_nil, List.append_assoc]
    congr 1

/-- Witness for C6: `color=red&color=blue` bound with style form and
explode=false errors with the "not exploded" error. -/
theorem c6_duplicate_witness :
    BindRawQueryParameter formStyle false true ("color".toList)
        ("color=red&color=blue".toList) .arrS =
      .error (.notExploded ("color".toList)) ∧
    ∃ a b, errMsg (.notExploded ("color".toList)) = a ++ "not exploded".toList ++ b :=
  c6_duplicate_not_exploded true ("color".toList) ("color=red&color=blue".toList) .arrS
    ["red".toList, "blue".toList] (by decide) (by decide)

/-- C7: for every input and destination, binding with style spaceDelimited
or pipeDelimited returns an unsupported-style error whose message names the
style, and binding with style deepObject and explode=false returns the
invalid style/explode-combination error; in all three cases the result is
an error, so the destination is never populated. -/
theorem c7_unsupported_styles (explode required : Bool) (name raw : Str) (shape : Shape) :
    BindRawQueryParameter spaceDelimitedStyle explode required name raw shape =
      .error (.unsupportedStyle spaceDelimitedStyle) ∧
    BindRawQueryParameter pipeDelimitedStyle explode required name raw shape =
      .error (.unsupportedStyle pipeDelimitedStyle) ∧
    BindRawQueryParameter deepObjectStyle false required name raw shape =
      .error (.invalidStyleExplode deepObjectStyle) ∧
    (∃ a b, errMsg (.unsupportedStyle spaceDelimitedStyle) =
      a ++ spaceDelimitedStyle ++ b) ∧
    (∃ a b, errMsg (.unsupportedStyle pipeDelimitedStyle) =
      a ++ pipeDelimitedStyle ++ b) := by
  refine ⟨?_, ?_, ?_,
    ⟨"unsupported style ".toList, [], by simp [errMsg]⟩,
    ⟨"unsupported style ".toList, [], by simp [errMsg]⟩⟩
  · rw [BindRawQueryParameter, if_pos rfl]
  · rw [BindRawQueryParameter, if_neg (by decide), if_pos rfl]
  · rw [BindRawQueryParameter, if_neg (by decide), if_neg (by decide), if_pos rfl]
    rfl

/-- C8: `findRawQueryParam` returns not-found on the empty query string for
every name; over a query assembled from raw `key=value` pairs it compares
only the percent-decoded key against the name and returns the still-encoded
value portions verbatim, preserving duplicate occurrences in order; and a
key with no `=` whose percent-decoded form matches the name is treated as
present with an empty-string value. -/
theorem c8_find_raw_query_param (name : Str) :
    findRawQueryParam [] name = none ∧
    (∀ ps : List (Str × Str), ps ≠ [] →
      (∀ p ∈ ps, '&' ∉ p.1 ∧ '=' ∉ p.1) → (∀ p ∈ ps, '&' ∉ p.2) →
      findRawQueryParam (joinSep '&' (ps.map fun kv => kv.1 ++ '=' :: kv.2)) name =
        (let vs := ps.filterMap fun kv =>
          if unescape kv.1 = some name then some kv.2 else none
         if vs = [] then none else some vs)) ∧
    (∀ k : Str, k ≠ [] → '&' ∉ k → '=' ∉ k → unescape k = some name →
      findRawQueryParam k name = some [[]]) := by
  refine ⟨rfl, fun ps hne hk hv => findRawQueryParam_join ps name hne hk hv, ?_⟩
  intro k hk0 hamp heq hu
  rw [findRawQueryParam, if_neg hk0, splitSep_of_not_mem hamp]
  show (if ([k].filterMap (rawPairMatch name)) = [] then none
    else some ([k].filterMap (rawPairMatch name))) = _
  rw [show [k].filterMap (rawPairMatch name) = [[]] from by
    rw [List.filterMap_cons]
    rw [show rawPairMatch name k = some [] from by
      rw [rawPairMatch, cutEq_no_eq heq]
      simp [hu]]
    rfl]
  rfl

/-- Witness for C8: a concrete query with a duplicate key, a percent-encoded
comma left verbatim in a value, an encoded key compared decoded, and the
empty-query and bare-key cases. -/
theorem c8_find_raw_witness :
    findRawQueryParam ("color=red&size=large&color=a%2Cb".toList) ("color".toList) =
      some ["red".toList, "a%2Cb".toList] ∧
    findRawQueryParam ("my%20color=red".toList) ("my color".toList) =
      some ["red".toList] ∧
    findRawQueryParam [] ("color".toList) = none ∧
    findRawQueryParam ("color".toList) ("color".toList) = some [[]] := by
  refine ⟨?_, ?_, (c8_find_raw_query_param ("color".toList)).1, ?_⟩
  · have h := (c8_find_raw_query_param ("color".toList)).2.1
      [("color".toList, "red".toList), ("size".toList, "large".toList),
        ("color".toList, "a%2Cb".toList)] (by decide) (by decide) (by decide)
    exact h.trans (by decide)
  · have h := (c8_find_raw_query_param ("my color".toList)).2.1
      [("my%20color".toList, "red".toList)] (by decide) (by decide) (by decide)
    exact h.trans (by decide)
  · exact (c8_find_raw_query_param ("color".toList)).2.2 ("color".toList)
      (by decide) (by decide) (by decide) (by decide)

theorem escChar_eq_self {c : Char} (h : 48 ≤ c.toNat) (h2 : c.toNat ≤ 57) :
    escChar c = [c] := by
  have hne : ∀ d : Char, c.toNat ≠ d.toNat → c ≠ d := fun d hd hc => hd (hc ▸ rfl)
  rw [escChar]
  rw [if_neg (hne '%' (by show c.toNat ≠ 37; omega)),
    if_neg (hne '&' (by show c.toNat ≠ 38; omega)),
    if_neg (hne '=' (by show c.toNat ≠ 61; omega)),
    if_neg (hne ',' (by show c.toNat ≠ 44; omega)),
    if_neg (hne '[' (by show c.toNat ≠ 91; omega)),
    if_neg (hne ']' (by show c.toNat ≠ 93; omega))]

theorem esc_natToStr (n : Nat) : esc (natToStr n) = natToStr n := by
  have h : ∀ s : Str, (∀ c ∈ s, 48 ≤ c.toNat ∧ c.toNat ≤ 57) → esc s = s := by
    intro s hs
    induction s with
    | nil => rfl
    | cons c s ih =>
      rw [esc_cons, escChar_eq_self (hs c (List.mem_cons_self _ _)).1
        (hs c (List.mem_cons_self _ _)).2,
        ih fun c hc => hs c (List.mem_cons_of_mem _ hc)]
      rfl
  exact h (natToStr n) fun c hc => natToStr_digit_range hc

mutual

theorem pairsAux_eq_dfLeaves (v : DValue) :
    pairsAux v = (dfLeaves v).map fun l => (renderSegs l.1, esc l.2) := by
  cases v with
  | scalar s => rfl
  | arr xs =>
    show pairsArr 0 xs = (dfArr 0 xs).map fun l => (renderSegs l.1, esc l.2)
    exact pairsArr_eq_dfArr 0 xs
  | obj fs =>
    show pairsObj fs = (dfObj fs).map fun l => (renderSegs l.1, esc l.2)
    exact pairsObj_eq_dfObj fs

theorem pairsArr_eq_dfArr (i : Nat) (xs : List DValue) :
    pairsArr i xs = (dfArr i xs).map fun l => (renderSegs l.1, esc l.2) := by
  cases xs with
  | nil => rfl
  | cons x xs =>
    show ((pairsAux x).map fun q => ('[' :: natToStr i ++ ']' :: q.1, q.2)) ++
        pairsArr (i + 1) xs = _
    rw [pairsAux_eq_dfLeaves x, pairsArr_eq_dfArr (i + 1) xs]
    show _ = ((((dfLeaves x).map fun l => (natToStr i :: l.1, l.2)) ++ dfArr (i + 1) xs).map
      fun l => (renderSegs l.1, esc l.2))
    rw [List.map_append, List.map_map, List.map_map]
    congr 1
    apply List.map_congr_left
    intro l hl
    simp only [Function.comp_apply, renderSegs, List.map_cons, List.flatten_cons, esc_natToStr]
    rw [List.append_assoc]
    rfl

theorem pairsObj_eq_dfObj (fs : List (Str × DValue)) :
    pairsObj fs = (dfObj fs).map fun l => (renderSegs l.1, esc l.2) := by
  cases fs with
  | nil => rfl
  | cons kv fs =>
    obtain ⟨k, x⟩ := kv
    show ((pairsAux x).map fun q => ('[' :: esc k ++ ']' :: q.1, q.2)) ++ pairsObj fs = _
    rw [pairsAux_eq_dfLeaves x, pairsObj_eq_dfObj fs]
    show _ = ((((dfLeaves x).map fun l => (k :: l.1, l.2)) ++ dfObj fs).map
      fun l => (renderSegs l.1, esc l.2))
    rw [List.map_append, List.map_map, List.map_map]
    congr 1
    apply List.map_congr_left
    intro l hl
    simp only [Function.comp_apply, renderSegs, List.map_cons, List.flatten_cons]
    rw [List.append_assoc]
    rfl

end

/-- C4: `MarshalDeepObject v N` is exactly the `&`-join, in depth-first
order (declared field order for objects, index order for arrays), of one
`key=encoded_scalar` pair per leaf scalar of `v`, with the key built as the
parameter name followed by one bracketed segment per path step (field names
for objects, decimal indices for arrays). -/
theorem c4_marshal_deep_object (v : DValue) (paramName : Str) :
    MarshalDeepObject v paramName =
      joinSep '&' ((dfLeaves v).map fun l =>
        (paramName ++ renderSegs l.1) ++ '=' :: esc l.2) := by
  rw [MarshalDeepObject, pairsAux_eq_dfLeaves, List.map_map]
  rfl

/-- The standard base64 alphabet (RFC 4648 section 4). -/
def stdAlphabet : Str :=
  "ABCDEFGHIJKLMNOPQRSTUVWXYZabcdefghijklmnopqrstuvwxyz0123456789+/".toList

/-- The URL-safe base64 alphabet (RFC 4648 section 5). -/
def urlAlphabet : Str :=
  "ABCDEFGHIJKLMNOPQRSTUVWXYZabcdefghijklmnopqrstuvwxyz0123456789-_".toList

/-- A base64 encoding, as Go's `base64.Encoding`: an alphabet and whether
padding is required. -/
structure B64Encoding where
  alphabet : Str
  padded : Bool
deriving DecidableEq

/-- Go's `base64.StdEncoding`: standard alphabet, padded. -/
def StdEncoding : B64Encoding := ⟨stdAlphabet, true⟩

/-- Go's `base64.URLEncoding`: URL-safe alphabet, padded. -/
def URLEncoding : B64Encoding := ⟨urlAlphabet, true⟩

/-- Go's `base64.RawStdEncoding`: standard alphabet, unpadded. -/
def RawStdEncoding : B64Encoding := ⟨stdAlphabet, false⟩

/-- Go's `base64.RawURLEncoding`: URL-safe alphabet, unpadded. -/
def RawURLEncoding : B64Encoding := ⟨urlAlphabet, false⟩

/-- Packs a list of six-bit groups into bytes; fails when a single sextet
is left over (an impossible base64 length). -/
def sextetsToBytes : List Nat → Option (List Nat)
  | [] => some []
  | [_] => none
  | [a, b] => some [a * 4 + b / 16]
  | [a, b, c] => some [a * 4 + b / 16, (b % 16) * 16 + c / 4]
  | a :: b :: c :: d :: rest =>
    (sextetsToBytes rest).map fun t =>
      (a * 4 + b / 16) :: ((b % 16) * 16 + c / 4) :: ((c % 4) * 64 + d) :: t

/-- Decodes a base64 body against one encoding: strips and validates the
trailing padding when the encoding is padded, maps every character through
the alphabet and packs the six-bit groups into bytes. -/
def b64DecodeCore (enc : B64Encoding) (s : Str) : Except Str (List Nat) :=
  let body := (s.reverse.dropWhile fun c => c = '=').reverse
  if enc.padded then
    if s.length % 4 ≠ 0 then .error ("invalid length".toList)
    else if s.length - body.length > 2 then .error ("too much padding".toList)
    else if '=' ∈ body then .error ("misplaced padding".toList)
    else
      match body.mapM fun c => enc.alphabet.indexOf? c with
      | none => .error ("illegal base64 data".toList)
      | some ds =>
        match sextetsToBytes ds with
        | none => .error ("invalid length".toList)
        | some bs => .ok bs
  else
    if '=' ∈ s then .error ("illegal base64 data".toList)
    else
      match s.mapM fun c => enc.alphabet.indexOf? c with
      | none => .error ("illegal base64 data".toList)
      | some ds =>
        match sextetsToBytes ds with
        | none => .error ("invalid length".toList)
        | some bs => .ok bs

/-- `base64Decode1` from the source: decodes with one encoding and wraps a
failure in a descriptive error naming the offending token. -/
def base64Decode1 (enc : B64Encoding) (s : Str) : Except Str (List Nat) :=
  match b64DecodeCore enc s with
  | .error e => .error ((("failed to base64-decode string ".toList ++ s) ++ ": ".toList) ++ e)
  | .ok b => .ok b

/-- `base64Decode` from the source: the empty string decodes to the empty
byte slice; otherwise the decoder is selected from the token's own
characters — padded input (contains `=`) picks the padded decoder with the
URL-safe alphabet when `-` or `_` is present and the standard alphabet
otherwise; unpadded input picks the corresponding unpadded decoder. -/
def base64Decode (s : Str) : Except Str (List Nat) :=
  if s = [] then .ok []
  else if '=' ∈ s then
    if '-' ∈ s ∨ '_' ∈ s then base64Decode1 URLEncoding s
    else base64Decode1 StdEncoding s
  else
    if '-' ∈ s ∨ '_' ∈ s then base64Decode1 RawURLEncoding s
    else base64Decode1 RawStdEncoding s

/-- C2: `base64Decode` selects its decoder solely from the token's own
characters — the empty string yields the empty byte slice with no error; a
token containing `=` goes to a padded decoder (URL-safe alphabet when `-` or
`_` is also present, else the standard alphabet); a token without `=` goes
to the corresponding unpadded decoder.  In particular a padded token (one
containing `=`) is always handed to one of the two padded decoders, never
to an unpadded one. -/
theorem c2_base64_decode_dispatch (s : Str) :
    (s = [] → base64Decode s = .ok []) ∧
    (s ≠ [] → '=' ∈ s → ('-' ∈ s ∨ '_' ∈ s) →
      base64Decode s = base64Decode1 URLEncoding s) ∧
    (s ≠ [] → '=' ∈ s → ¬('-' ∈ s ∨ '_' ∈ s) →
      base64Decode s = base64Decode1 StdEncoding s) ∧
    (s ≠ [] → '=' ∉ s → ('-' ∈ s ∨ '_' ∈ s) →
      base64Decode s = base64Decode1 RawURLEncoding s) ∧
    (s ≠ [] → '=' ∉ s → ¬('-' ∈ s ∨ '_' ∈ s) →
      base64Decode s = base64Decode1 RawStdEncoding s) ∧
    (URLEncoding.padded = true ∧ StdEncoding.padded = true ∧
      RawURLEncoding.padded = false ∧ RawStdEncoding.padded = false) := by
  refine ⟨?_, ?_, ?_, ?_, ?_, by decide⟩
  · intro h
    rw [base64Decode, if_pos h]
  · intro h0 h1 h2
    rw [base64Decode, if_neg h0, if_pos h1, if_pos h2]
  · intro h0 h1 h2
    rw [base64Decode, if_neg h0, if_pos h1, if_neg h2]
  · intro h0 h1 h2
    rw [base64Decode, if_neg h0, if_neg h1, if_pos h2]
  · intro h0 h1 h2
    rw [base64Decode, if_neg h0, if_neg h1, if_neg h2]

/-- Witness for C2: the padded standard-alphabet token `dGVzdA==` is routed
to the padded standard decoder and decodes to the bytes of `test`; the
unpadded URL-safe token `PDw_Pz4-` is routed to the unpadded URL-safe
decoder. -/
theorem c2_base64_decode_witness :
    base64Decode ("dGVzdA==".toList) = base64Decode1 StdEncoding ("dGVzdA==".toList) ∧
    base64Decode ("dGVzdA==".toList) = .ok [116, 101, 115, 116] ∧
    base64Decode ("PDw_Pz4-".toList) = base64Decode1 RawURLEncoding ("PDw_Pz4-".toList) := by
  have h1 := (c2_base64_decode_dispatch ("dGVzdA==".toList)).2.2.1
    (by decide) (by decide) (by decide)
  have h2 := (c2_base64_decode_dispatch ("PDw_Pz4-".toList)).2.2.2.1
    (by decide) (by decide) (by decide)
  exact ⟨h1, h1.trans (by decide), h2⟩

/-- A JSON token for a scalar position: the explicit `null` literal or an
encoded value. -/
inductive JsonTok (T : Type) where
  | null
  | val (t : T)
deriving DecidableEq

/-- `types.Nullable` from `src/types/nullable.go`: `Value` is the pointer to
the underlying value (`none` models a nil pointer) and `Set` records whether
the field was sent. -/
structure Nullable (T : Type) where
  Value : Option T
  Set : Bool
deriving DecidableEq

/-- `Nullable.IsNull` from the source: on a non-nil receiver it reports only
whether `Value` is nil, regardless of `Set`. -/
def Nullable.IsNull {T : Type} (t : Nullable T) : Bool := t.Value.isNone

/-- `Nullable.IsSet` from the source. -/
def Nullable.IsSet {T : Type} (t : Nullable T) : Bool := t.Set

/-- `Nullable.MarshalJSON` from the source: the `!t.Set` branch is commented
out (TODO), so the marshalled token depends only on `Value` — the `null`
literal when `Value` is nil (`IsNull`), else the encoded value. -/
def Nullable.marshalJSON {T : Type} (t : Nullable T) : JsonTok T :=
  match t.Value with
  | none => .null
  | some v => .val v

/-- `Nullable.UnmarshalJSON` from the source: sets `Set := true` first; on
the `null` token it returns early leaving `Value` unchanged, otherwise it
stores the unmarshalled value. -/
def Nullable.unmarshalJSON {T : Type} (t : Nullable T) (data : JsonTok T) : Nullable T :=
  match data with
  | .null => ⟨t.Value, true⟩
  | .val v => ⟨some v, true⟩

/-- C3 fails on the code: marshalling the unspecified wrapper
(`Value = nil, Set = false`) produces the explicit `null` token (because
`MarshalJSON` consults only `Value`; its `!t.Set` guard is commented out),
so one encode/decode cycle into a zero destination turns the unspecified
state into the specified-null state (`Set = true, Value = nil`) — the
states collapse, contradicting the claim; the specified-null and
specified-value states do round-trip. -/
theorem c3_unspecified_collapses_to_null :
    Nullable.marshalJSON (⟨none, false⟩ : Nullable Nat) = JsonTok.null ∧
    Nullable.unmarshalJSON (⟨none, false⟩ : Nullable Nat)
        (Nullable.marshalJSON (⟨none, false⟩ : Nullable Nat)) =
      (⟨none, true⟩ : Nullable Nat) ∧
    (⟨none, true⟩ : Nullable Nat) ≠ (⟨none, false⟩ : Nullable Nat) ∧
    ((⟨none, true⟩ : Nullable Nat).IsSet = true ∧
      (⟨none, true⟩ : Nullable Nat).IsNull = true) ∧
    Nullable.unmarshalJSON (⟨none, false⟩ : Nullable Nat)
        (Nullable.marshalJSON (⟨none, true⟩ : Nullable Nat)) =
      (⟨none, true⟩ : Nullable Nat) ∧
    Nullable.unmarshalJSON (⟨none, false⟩ : Nullable Nat)
        (Nullable.marshalJSON (⟨some 5, true⟩ : Nullable Nat)) =
      (⟨some 5, true⟩ : Nullable Nat) := by decide

/-- The keys a Go context can carry in this model: the package-private
operation-id key, or any other key. -/
inductive CtxKey where
  | opId
  | other (n : Nat)
deriving DecidableEq

/-- The values a Go context can carry in this model: a string, or a value
of any other type (which the `.(string)` assertion rejects). -/
inductive CtxVal where
  | str (s : Str)
  | nonStr (n : Nat)
deriving DecidableEq

/-- A Go context, modelled as its chain of WithValue wrappers, most recent
first. -/
abbrev Ctx := List (CtxKey × CtxVal)

/-- `ctx.Value(key)`: the most recent binding for the key. -/
def ctxValue (ctx : Ctx) (k : CtxKey) : Option CtxVal :=
  (ctx.find? fun p => p.1 == k).map Prod.snd

/-- `WithOperationId` from the source: stores the operation id string under
the package-private key. -/
def WithOperationId (ctx : Ctx) (operationId : Str) : Ctx :=
  (CtxKey.opId, CtxVal.str operationId) :: ctx

/-- `GetOperationId` from the source: looks up the package-private key and
type-asserts to string, returning the empty string when the assertion or
the lookup fails. -/
def GetOperationId (ctx : Ctx) : Str :=
  match ctxValue ctx CtxKey.opId with
  | some (CtxVal.str s) => s
  | _ => []

/-- C9: `GetOperationId (WithOperationId ctx s) = s` for every context and
string, and `GetOperationId` returns the empty string on every context that
does not hold a string under the operation-id key. -/
theorem c9_operation_id_round_trip :
    (∀ (ctx : Ctx) (s : Str), GetOperationId (WithOperationId ctx s) = s) ∧
    (∀ ctx : Ctx, (∀ s, ctxValue ctx CtxKey.opId ≠ some (CtxVal.str s)) →
      GetOperationId ctx = []) := by
  constructor
  · intro ctx s
    rw [GetOperationId, WithOperationId, ctxValue,
      List.find?_cons_of_pos _ (by simp)]
    rfl
  · intro ctx h
    rw [GetOperationId]
    cases hv : ctxValue ctx CtxKey.opId with
    | none => rfl
    | some v =>
      cases v with
      | str s => exact absurd hv (h s)
      | nonStr n => rfl

/-- Witness for C9: storing and reading back a concrete operation id, and
reading a context whose operation-id slot holds a non-string. -/
theorem c9_operation_id_witness :
    GetOperationId (WithOperationId [(CtxKey.other 3, CtxVal.nonStr 7)] ("getPets".toList)) =
      "getPets".toList ∧
    GetOperationId [(CtxKey.other 3, CtxVal.nonStr 7), (CtxKey.opId, CtxVal.nonStr 5)] = [] :=
  ⟨c9_operation_id_round_trip.1 [(CtxKey.other 3, CtxVal.nonStr 7)] ("getPets".toList),
   c9_operation_id_round_trip.2 [(CtxKey.other 3, CtxVal.nonStr 7), (CtxKey.opId, CtxVal.nonStr 5)]
     (by
      intro s h
      rw [show ctxValue [(CtxKey.other 3, CtxVal.nonStr 7), (CtxKey.opId, CtxVal.nonStr 5)]
          CtxKey.opId = some (CtxVal.nonStr 5) from by decide] at h
      simp at h)⟩

/-- `types.Email`: a string that must parse as a mail address. -/
abbrev Email := Str

/-- The sentinel validation error of `types/email.go`. -/
def ErrValidationEmail : Str := "email: failed to pass regex validation".toList

/-- `Email.MarshalJSON` from the source, with `mail.ParseAddress` (Go
standard library, outside this repository) abstracted as a parser returning
the parsed address portion: validation failure yields the sentinel error,
success marshals the parsed address. -/
def Email.marshalJSON (parse : Str → Option Str) (e : Email) : Except Str Str :=
  match parse e with
  | none => .error ErrValidationEmail
  | some addr => .ok addr

/-- `Email.UnmarshalJSON` from the source, on the decoded string content
`s`: the pair returned is (error, destination after the call) — on parse
failure the sentinel error is returned and the destination is left
unchanged, on success the destination receives the parsed address portion
(not the raw input). -/
def Email.unmarshalInto (parse : Str → Option Str) (e : Email) (s : Str) :
    Option Str × Email :=
  match parse s with
  | none => (some ErrValidationEmail, e)
  | some addr => (none, addr)

/-- C10: for every address parser, `Email` marshalling and unmarshalling
succeed exactly when the string content parses as a mail address; on
failure both return the sentinel `ErrValidationEmail` and unmarshalling
leaves the destination unchanged; on success the marshalled/stored value is
the parsed address portion. -/
theorem c10_email_validation (parse : Str → Option Str) (e : Email) (s : Str) :
    ((Email.unmarshalInto parse e s).1 = none ↔ (parse s).isSome = true) ∧
    (parse s = none → Email.unmarshalInto parse e s = (some ErrValidationEmail, e)) ∧
    (∀ a, parse s = some a → Email.unmarshalInto parse e s = (none, a)) ∧
    (parse e = none → Email.marshalJSON parse e = .error ErrValidationEmail) ∧
    (∀ a, parse e = some a → Email.marshalJSON parse e = .ok a) := by
  refine ⟨?_, ?_, ?_, ?_, ?_⟩
  · cases h : parse s <;> simp [Email.unmarshalInto, h]
  · intro h
    rw [Email.unmarshalInto, h]
  · intro a h
    rw [Email.unmarshalInto, h]
  · intro h
    rw [Email.marshalJSON, h]
  · intro a h
    rw [Email.marshalJSON, h]

/-- A concrete toy address parser for the C10 witness. -/
def demoParseAddress (s : Str) : Option Str := if '@' ∈ s then some s else none

/-- Witness for C10 at concrete inputs: a failing unmarshal leaves the
destination unchanged and returns the sentinel, a successful marshal emits
the parsed address. -/
theorem c10_email_witness :
    Email.unmarshalInto demoParseAddress ("bob@example.com".toList) ("not-an-email".toList) =
      (some ErrValidationEmail, "bob@example.com".toList) ∧
    Email.marshalJSON demoParseAddress ("alice@example.org".toList) =
      .ok ("alice@example.org".toList) :=
  ⟨(c10_email_validation demoParseAddress ("bob@example.com".toList)
      ("not-an-email".toList)).2.1 (by decide),
   (c10_email_validation demoParseAddress ("alice@example.org".toList) []).2.2.2.2
     ("alice@example.org".toList) (by decide)⟩
